import Mathlib

/-!
Verification of the chess-ai repository's documented behaviour against a
shallow Lean embedding of its Python sources.

Each Python function relevant to a claim is translated into a Lean
definition that mirrors the source line by line; chess-library state
(python-chess boards, moves, keys) is abstracted behind explicit structures
and function parameters, since the `chess` package is an external
dependency of the repository.  Machine arithmetic on scores is exact
integer arithmetic in the sources (evaluators return ints); search code
additionally uses the IEEE infinities only as sentinels for loop
accumulators and window bounds, which we model with `WithBot (WithTop ℤ)`.
-/

/- ===================== C2: evaluator terminal behaviour =====================
   Source: src/src/evaluation/evaluator.py, `evaluate` (lines 147-215).
   The terminal checks are translated exactly; the remainder of the function
   body (material, piece-square tables, pawn structure, king safety, mop-up,
   lines 158-214) is reached only on non-terminal positions and is abstracted
   as the field `positionalScore` of the position view. -/

/-- Abstract view of a python-chess board as read by `evaluate`:
the three terminal predicates, the side to move, and the value the
non-terminal part of the function body would compute. -/
structure EvalPosition where
  isStalemate : Bool
  isInsufficientMaterial : Bool
  isCheckmate : Bool
  turnWhite : Bool
  positionalScore : Int
deriving DecidableEq

/-- Translation of `evaluate(board, ply_from_root)` (evaluator.py lines
147-215): stalemate / insufficient material return 0; checkmate returns
`-20000 + ply_from_root` for White to move, else `20000 - ply_from_root`;
otherwise the positional evaluation. -/
def evaluateFn (p : EvalPosition) (plyFromRoot : Nat) : Int :=
  if p.isStalemate || p.isInsufficientMaterial then 0
  else if p.isCheckmate then
    (if p.turnWhite then -20000 + (plyFromRoot : Int) else 20000 - (plyFromRoot : Int))
  else p.positionalScore

/-- Chess-consistency of the terminal predicates: a checkmate position is
never a stalemate (checkmate requires the side to move to be in check,
stalemate requires it not to be) and never has insufficient material in
python-chess's sense (`is_insufficient_material` holds only when neither
side could possibly be checkmated with the material on the board, and a
checkmate has just been delivered). Every reachable chess position
satisfies this. -/
def EvalPosition.consistent (p : EvalPosition) : Prop :=
  p.isCheckmate = true → p.isStalemate = false ∧ p.isInsufficientMaterial = false

/- ===================== C3: puzzle evaluator exception path ==================
   Source: src/src/puzzles/puzzle_evaluator.py.
   `PuzzleResult` (lines 9-31) is a `@dataclass`.  Python's dataclass
   machinery collects as constructor fields exactly the class-level names
   carrying a type annotation; the line `puzzle = Puzzle` (line 25) has no
   annotation, so `puzzle` is NOT a field and `__init__` does not accept it.
   None of the declared fields has a default value.  We model a call to the
   generated `__init__` with a set of keyword arguments: it raises TypeError
   iff some keyword is not a field or some field is missing. -/

/-- The constructor fields of `PuzzleResult` generated by `@dataclass`:
the annotated class attributes, in order (`puzzle = Puzzle` is unannotated
and therefore not a field). -/
def puzzleResultFields : List String :=
  ["solved", "agent_move", "correct_move", "eval_score", "nodes_searched",
   "time_taken", "depth"]

/-- Keyword arguments used by the `except` branch of
`PuzzleEvaluator._evaluate_puzzle` (puzzle_evaluator.py lines 259-266). -/
def exceptBranchKwargs : List String :=
  ["puzzle", "solved", "agent_move", "correct_move", "time_taken", "depth"]

/-- Keyword arguments used by the success path of
`PuzzleEvaluator._evaluate_puzzle` (puzzle_evaluator.py lines 285-294). -/
def successBranchKwargs : List String :=
  ["puzzle", "solved", "agent_move", "correct_move", "eval_score",
   "nodes_searched", "time_taken", "depth"]

/-- Python semantics of calling a dataclass-generated `__init__` with
keyword arguments only: TypeError iff an unexpected keyword is passed or a
required field (here: all of them, none has a default) is missing. -/
def dataclassCallRaises (fields kwargs : List String) : Bool :=
  kwargs.any (fun k => !fields.contains k) || fields.any (fun f => !kwargs.contains f)

/-- Whether `_evaluate_puzzle` raises a TypeError out of its own body for a
single puzzle: if the agent's `choose_move` raises, the `except` branch
builds a `PuzzleResult`; otherwise the success path does. -/
def evaluatePuzzleRaises (agentRaises : Bool) : Bool :=
  if agentRaises then dataclassCallRaises puzzleResultFields exceptBranchKwargs
  else dataclassCallRaises puzzleResultFields successBranchKwargs

/-- `PuzzleEvaluator.evaluate` (lines 170-226) loops `_evaluate_puzzle` over
the batch with no surrounding try/except, so the batch aborts iff some
puzzle's evaluation raises. `agentRaisesOn` records, puzzle by puzzle,
whether the agent's `choose_move` raises. -/
def evaluateBatchAborts (agentRaisesOn : List Bool) : Bool :=
  agentRaisesOn.any evaluatePuzzleRaises

/- ===================== C4: episode hooks =====================
   Source: src/src/agents/base_agent.py lines 146-152 and
   src/scripts/agent_utils.py `play_game` (lines 53-74).
   `BaseAgent.startEpisode` and `BaseAgent.stopEpisode` are declared with
   zero parameters (no `self`).  Python's bound-method call `agent.hook()`
   passes the instance as one positional argument, so the call succeeds iff
   the declared parameter count is exactly 1 (none of these declarations
   has defaults or varargs). -/

/-- Parameter count of `def startEpisode():` in base_agent.py line 146. -/
def baseStartEpisodeParams : Nat := 0

/-- Parameter count of `def stopEpisode():` in base_agent.py line 150. -/
def baseStopEpisodeParams : Nat := 0

/-- Parameter count of `ReinforcementAgent.startEpisode(self)`
(learning_agent.py line 64), the override used by the learning agents. -/
def reinforcementStartEpisodeParams : Nat := 1

/-- Python bound-method invocation `agent.hook()`: the instance is passed
as the single positional argument, so the call is well-formed iff the
declared parameter count is 1. -/
def boundMethodCallOk (declaredParams : Nat) : Bool :=
  declaredParams == 1

/-- The episode-hook prologue of `play_game` (agent_utils.py lines 57-58):
`white_agent.startEpisode()` then `black_agent.startEpisode()`.  The
prologue succeeds iff both bound calls are well-formed; it runs before any
move is played. -/
def playGameHooksOk (whiteStartParams blackStartParams : Nat) : Bool :=
  boundMethodCallOk whiteStartParams && boundMethodCallOk blackStartParams

/- ===================== C8: Elo update =====================
   Source: src/scripts/tournament.py lines 34-45.  The Python code computes
   with IEEE doubles; we model the arithmetic over the reals. -/

/-- Translation of `expected_score(rating_a, rating_b)` (tournament.py
lines 34-36). -/
noncomputable def expectedScore (ratingA ratingB : ℝ) : ℝ :=
  1 / (1 + (10 : ℝ) ^ ((ratingB - ratingA) / 400))

/-- Translation of `update_elo(r_a, r_b, score_a, k)` (tournament.py lines
39-45). -/
noncomputable def updateElo (rA rB scoreA k : ℝ) : ℝ × ℝ :=
  (rA + k * (scoreA - expectedScore rA rB),
   rB + k * ((1 - scoreA) - expectedScore rB rA))

/- ===================== C9 / C10: puzzle rows =====================
   A CSV row of the Lichess puzzle database, as read by
   src/data/sample_data.py and src/src/puzzles/puzzle_loader.py: only the
   id, rating and themes columns matter to the claims. -/

/-- A puzzle row: id, integer rating, theme list. -/
structure PRow where
  pid : String
  rating : Int
  themes : List String
deriving DecidableEq

/- ===================== C10: loader filter truthiness =====================
   Source: src/src/puzzles/puzzle_loader.py `_passes_filters` (lines
   92-123) and `load` (lines 32-68).  Each filter is guarded by Python
   truthiness of the argument: `None` and `0` (resp. the empty list) are
   falsy and disable the filter. -/

/-- Python truthiness of an `Optional[int]`. -/
def truthyInt : Option Int → Bool
  | none => false
  | some z => z != 0

/-- Python truthiness of an `Optional[List[str]]`. -/
def truthyList : Option (List String) → Bool
  | none => false
  | some l => !l.isEmpty

/-- Python truthiness of an `Optional[int]` used as a count. -/
def truthyNat : Option Nat → Bool
  | none => false
  | some n => n != 0

/-- Translation of `PuzzleLoader._passes_filters` (puzzle_loader.py lines
92-123): `if min_rating and puzzle.rating < min_rating: return False`, then
the symmetric max check, the theme conjunction, and the custom filter. -/
def passesFilters (p : PRow) (minRating maxRating : Option Int)
    (themes : Option (List String)) (customFilter : Option (PRow → Bool)) : Bool :=
  if truthyInt minRating && decide (p.rating < minRating.getD 0) then false
  else if truthyInt maxRating && decide (maxRating.getD 0 < p.rating) then false
  else if truthyList themes && !((themes.getD []).all (fun t => p.themes.contains t)) then false
  else match customFilter with
       | some f => f p
       | none => true

/-- The row loop of `PuzzleLoader.load` (puzzle_loader.py lines 53-67):
`if limit and count >= limit: break`, then parse and filter, counting kept
rows.  Rows stand for already-parsed CSV lines. -/
def loadRows (minRating maxRating : Option Int) (themes : Option (List String))
    (limit : Option Nat) (customFilter : Option (PRow → Bool)) :
    List PRow → Nat → List PRow
  | [], _ => []
  | r :: rs, count =>
    if truthyNat limit && decide (limit.getD 0 ≤ count) then []
    else if passesFilters r minRating maxRating themes customFilter then
      r :: loadRows minRating maxRating themes limit customFilter rs (count + 1)
    else loadRows minRating maxRating themes limit customFilter rs count

/-- `PuzzleLoader.load` on a row list: the loop above started at count 0. -/
def loadModel (rows : List PRow) (minRating maxRating : Option Int)
    (themes : Option (List String)) (limit : Option Nat)
    (customFilter : Option (PRow → Bool)) : List PRow :=
  loadRows minRating maxRating themes limit customFilter rows 0

/- ===================== Board state model (C5, C6) =====================
   python-chess `Board.push` records the move on `move_stack` together with
   an internal snapshot of the position, and `Board.pop` restores that
   snapshot (including the side to move).  We model a board as a core
   (placement plus side to move) and a stack of (move, snapshot) pairs;
   `pop` is only ever used after a matching `push` in the code below. -/

/-- The mutable position data of a board: an abstract placement value plus
the side to move (`board.turn`, `True` = White). -/
structure BoardCore (π : Type) where
  pos : π
  turnWhite : Bool
deriving DecidableEq

/-- A python-chess board: current core plus the push/pop stack. -/
structure BoardState (π μ : Type) where
  core : BoardCore π
  stack : List (μ × BoardCore π)
deriving DecidableEq

/-- `board.push(move)`: apply the move to the core and record the snapshot. -/
def BoardState.push {π μ : Type} (apply : BoardCore π → μ → BoardCore π)
    (b : BoardState π μ) (m : μ) : BoardState π μ :=
  ⟨apply b.core m, (m, b.core) :: b.stack⟩

/-- `board.pop()`: restore the snapshot recorded by the last push (identity
on an empty stack, a case the modelled code never reaches). -/
def BoardState.pop {π μ : Type} (b : BoardState π μ) : BoardState π μ :=
  match b.stack with
  | [] => b
  | (_, c) :: rest => ⟨c, rest⟩

/-- `board.turn = t`: direct assignment of the side to move; placement and
stack are untouched. -/
def BoardState.setTurn {π μ : Type} (b : BoardState π μ) (t : Bool) : BoardState π μ :=
  ⟨⟨b.core.pos, t⟩, b.stack⟩

/- ===================== C5: QLearningAgent.choose_move board effect ========
   Source: src/src/agents/qlearning_agent.py.
   `choose_move` (lines 37-50) calls `getAction` then `doAction`.
   `getAction` (lines 128-143) assigns `board.turn = self.color` and either
   picks a random legal move (`flipCoin(self.epsilon)` branch) or calls
   `computeActionFromQValues` (lines 100-126), which assigns
   `board.turn = self.color` again and then pushes and pops each legal move.
   `doAction` (lines 53-64) stores a reference and works on a `.copy()`;
   it performs no operation on the argument board.  We track exactly the
   sequence of operations applied to the argument board; the `flipCoin`
   outcome is the explicit parameter `explore`. -/

/-- Board operations of `computeActionFromQValues(board)`: set the turn to
the agent's colour, return at once if the game is over or no legal move exists,
else push and pop every legal move. -/
def qlComputeActionBoard {π μ : Type} (apply : BoardCore π → μ → BoardCore π)
    (legalMoves : BoardCore π → List μ) (gameOver : BoardCore π → Bool)
    (color : Bool) (b : BoardState π μ) : BoardState π μ :=
  let b1 := b.setTurn color
  if gameOver b1.core || (legalMoves b1.core).isEmpty then b1
  else (legalMoves b1.core).foldl (fun bb m => (bb.push apply m).pop) b1

/-- Board operations of `getAction(board)`: set the turn to the agent's
colour, then (unless exploring randomly) run `computeActionFromQValues`. -/
def qlGetActionBoard {π μ : Type} (apply : BoardCore π → μ → BoardCore π)
    (legalMoves : BoardCore π → List μ) (gameOver : BoardCore π → Bool)
    (color explore : Bool) (b : BoardState π μ) : BoardState π μ :=
  let b1 := b.setTurn color
  if explore then b1
  else qlComputeActionBoard apply legalMoves gameOver color b1

/-- Board operations of `QLearningAgent.choose_move(board)`: those of
`getAction` (the subsequent `doAction` only reads the board and mutates a
copy). -/
def qlChooseMoveBoard {π μ : Type} (apply : BoardCore π → μ → BoardCore π)
    (legalMoves : BoardCore π → List μ) (gameOver : BoardCore π → Bool)
    (color explore : Bool) (b : BoardState π μ) : BoardState π μ :=
  qlGetActionBoard apply legalMoves gameOver color explore b

/- ===================== C6: ValueIterationAgent.computeQValueFromValues ====
   Source: src/src/agents/valueIteration_agent.py lines 90-118.
   The float table `self.values` and the float discount are modelled over
   ℚ; `self.newStates` bookkeeping (the 1% `flipCoin`) does not influence
   the returned value and is omitted. -/

/-- Python `min(list)` over a nonempty rational list (0 on [], unreached). -/
def listMinQ : List ℚ → ℚ
  | [] => 0
  | x :: xs => xs.foldl min x

/-- Python `max(list)` over a nonempty rational list (0 on [], unreached). -/
def listMaxQ : List ℚ → ℚ
  | [] => 0
  | x :: xs => xs.foldl max x

/-- Translation of `computeQValueFromValues(board, action)` (lines 90-118):
push the action; force `board.turn` to the opponent colour; collect
`self.getValue(board.fen())` over every opponent reply (push/pop around the
read); take their min when the agent plays Black, their max when White (the
value of the reached position itself if there is no reply); pop; and return
`evaluation.evaluate(board) + self.discount * value` — evaluated on the
board as it is after the pop.  Returns the final board and the value. -/
def viComputeQFromValues {π μ κ : Type} (apply : BoardCore π → μ → BoardCore π)
    (legalMoves : BoardCore π → List μ) (fen : BoardCore π → κ)
    (getValue : κ → ℚ) (evalBoard : BoardCore π → ℚ) (discount : ℚ)
    (color : Bool) (b : BoardState π μ) (action : μ) : BoardState π μ × ℚ :=
  let b1 := b.push apply action
  let b2 := b1.setTurn (!color)
  let oppActions := legalMoves b2.core
  let value : ℚ :=
    if oppActions.isEmpty then getValue (fen b2.core)
    else
      let curValues := oppActions.map (fun m => getValue (fen ((b2.push apply m).core)))
      if color = false then listMinQ curValues else listMaxQ curValues
  let b3 := b2.pop
  (b3, evalBoard b3.core + discount * value)

/-- Modelled from the spec sentence for C6 (the code itself is the
authority for `viComputeQFromValues` above): "finally undo `action` and
return `evaluate(position-after-action) + discount × opponent_effective_value`",
i.e. the evaluation term is taken on the position reached by the action. -/
def viComputeQSpecValue {π μ κ : Type} (apply : BoardCore π → μ → BoardCore π)
    (legalMoves : BoardCore π → List μ) (fen : BoardCore π → κ)
    (getValue : κ → ℚ) (evalBoard : BoardCore π → ℚ) (discount : ℚ)
    (color : Bool) (b : BoardState π μ) (action : μ) : ℚ :=
  let afterCore := apply b.core action
  let flipped : BoardCore π := ⟨afterCore.pos, !color⟩
  let replies := legalMoves flipped
  let value : ℚ :=
    if replies.isEmpty then getValue (fen flipped)
    else
      let replyValues := replies.map (fun m => getValue (fen (apply flipped m)))
      if color = false then listMinQ replyValues else listMaxQ replyValues
  evalBoard afterCore + discount * value

/-- The opponent's effective one-ply lookahead value used by
`computeQValueFromValues`: over the position after the action with the turn
forced to the opponent, the min of the reply values when the agent plays
Black, the max when it plays White, or the position's own table value when
there is no reply. -/
def viOppValue {π μ κ : Type} (apply : BoardCore π → μ → BoardCore π)
    (legalMoves : BoardCore π → List μ) (fen : BoardCore π → κ)
    (getValue : κ → ℚ) (color : Bool) (b : BoardState π μ) (action : μ) : ℚ :=
  let flipped : BoardCore π := ⟨(apply b.core action).pos, !color⟩
  let replies := legalMoves flipped
  if replies.isEmpty then getValue (fen flipped)
  else
    let replyValues := replies.map (fun m => getValue (fen (apply flipped m)))
    if color = false then listMinQ replyValues else listMaxQ replyValues

/- ===================== C7: move-ordering scores =====================
   Sources: src/src/search/search_base.py `_score_move` (lines 93-141),
   src/src/search/minimax.py `_order_moves.score_move` (lines 137-156),
   src/src/search/alphabeta.py `_order_moves.score_move` (lines 158-189),
   src/src/search/expectimax.py `_order_moves.score_move` (lines 151-174).
   Each of the three search classes overrides `_order_moves` with its own
   inline `score_move` closure, so the shared default
   `SearchAlgorithm._score_move` (reached only through the base
   `_order_moves`, which only the base `_quiescence` calls — itself
   overridden by all three classes) is used by none of them.  All scorers
   read the same data from the (board, move) pair, which we bundle in
   `MoveCtx`.  For a legal move `board.piece_at(move.from_square)` is never
   `None`; the base scorer guards it anyway, the inline scorers do not. -/

/-- Chess piece kinds. -/
inductive PieceKind where
  | pawn | knight | bishop | rook | queen | king
deriving DecidableEq

/-- The MVV-LVA piece values, identical in all three scorers (and in
`SearchAlgorithm.DEFAULT_PIECE_VALUES`). -/
def pieceValue : PieceKind → Int
  | .pawn => 100
  | .knight => 320
  | .bishop => 330
  | .rook => 500
  | .queen => 900
  | .king => 20000

/-- What a scorer reads from the (board, move) pair: capture and en-passant
flags, the pieces on the move's squares, the move's squares, whether the
move promotes, and the last move on `board.move_stack` (from, to). -/
structure MoveCtx where
  isCapture : Bool
  isEnPassant : Bool
  fromPiece : Option PieceKind
  victim : Option PieceKind
  fromSq : Nat
  toSq : Nat
  promo : Bool
  lastMove : Option (Nat × Nat)
deriving DecidableEq

/-- `last_move and move.from_square == last_move.to_square and
move.to_square == last_move.from_square` — the capture exactly reverses the
immediately preceding move. -/
def reversesLast (ctx : MoveCtx) : Bool :=
  match ctx.lastMove with
  | none => false
  | some (lf, lt) => ctx.fromSq == lt && ctx.toSq == lf

/-- `SearchAlgorithm._score_move` (search_base.py lines 93-141), the shared
default for subclasses that do not override `_order_moves` — all three
search classes do override it, so none of them uses this scorer: MVV-LVA
base (105 for en passant), then −200 for reversing the previous move, then
−60 for a king capture; promotions 900; quiet moves +5 for a pawn mover,
−20 for a king mover (the `for_chance` flag returns the same value on both
paths). -/
def scoreMoveBase (ctx : MoveCtx) : Int :=
  if ctx.isCapture then
    let base :=
      if ctx.isEnPassant then 105
      else 10 * ((ctx.victim.map pieceValue).getD 0) - (ctx.fromPiece.map pieceValue).getD 0
    let base := if reversesLast ctx then base - 200 else base
    if ctx.fromPiece = some PieceKind.king then base - 60 else base
  else if ctx.promo then 900
  else
    let s : Int := 0
    let s := if ctx.fromPiece = some PieceKind.pawn then s + 5 else s
    if ctx.fromPiece = some PieceKind.king then s - 20 else s

/-- `MiniMaxSearch._order_moves.score_move` (minimax.py lines 137-156): en
passant returns 105 before any penalty; otherwise MVV-LVA, then −100 for
reversing the previous move, then −30 for a king capture; promotions 900.
(`attacker.piece_type` is read unguarded; a legal move always has a source
piece.) -/
def scoreMoveMM (ctx : MoveCtx) : Int :=
  if ctx.isCapture then
    if ctx.isEnPassant then 105
    else
      let score := 10 * ((ctx.victim.map pieceValue).getD 0) - (ctx.fromPiece.map pieceValue).getD 0
      let score := if reversesLast ctx then score - 100 else score
      if ctx.fromPiece = some PieceKind.king then score - 30 else score
  else if ctx.promo then 900
  else 0

/-- `AlphaBetaSearch._order_moves.score_move` (alphabeta.py lines 158-189):
plain MVV-LVA (105 for en passant), promotions 900, quiet moves 0 — no
repetition or king penalty of any kind. -/
def scoreMoveAB (ctx : MoveCtx) : Int :=
  if ctx.isCapture then
    if ctx.isEnPassant then 105
    else 10 * ((ctx.victim.map pieceValue).getD 0) - (ctx.fromPiece.map pieceValue).getD 0
  else if ctx.promo then 900
  else 0

/-- `ExpectimaxSearch._order_moves.score_move` (expectimax.py lines
151-174): en passant returns 105 before any penalty; otherwise MVV-LVA,
then −100 for reversing the previous move, then −30 for a king capture;
promotions 900; quiet king moves −10, other quiet moves 0. -/
def scoreMoveEM (ctx : MoveCtx) : Int :=
  if ctx.isCapture then
    if ctx.isEnPassant then 105
    else
      let score := 10 * ((ctx.victim.map pieceValue).getD 0) - (ctx.fromPiece.map pieceValue).getD 0
      let score := if reversesLast ctx then score - 100 else score
      if ctx.fromPiece = some PieceKind.king then score - 30 else score
  else if ctx.promo then 900
  else if ctx.fromPiece = some PieceKind.king then -10
  else 0

/-- A knight recapturing a pawn on the squares of the previous move:
`isCapture`, not en passant, attacker knight, victim pawn, and the previous
move ran 1 → 2 while this move runs 2 → 1. -/
def ctxReversingCapture : MoveCtx :=
  ⟨true, false, some PieceKind.knight, some PieceKind.pawn, 2, 1, false, some (1, 2)⟩

/-- The same capture with an empty move stack (no previous move). -/
def ctxPlainCapture : MoveCtx :=
  ⟨true, false, some PieceKind.knight, some PieceKind.pawn, 2, 1, false, none⟩

/- ===================== C9: stratified puzzle sampler =====================
   Source: src/data/sample_data.py `create_puzzle_subset` (lines 73-142) and
   `sample_stratified` (lines 145-176).  `random.sample` draws a
   `sample_size`-subset of `available`; it is modelled as an explicit
   function parameter `samp`, constrained (in the theorems) to return
   elements of its input, which every draw of `random.sample` satisfies.
   The float budget computations `int(total * 0.6)` / `int(total * 0.4)`
   are modelled with exact integer arithmetic; the claims under study do
   not depend on the budget values.  The Python dict `selected` is an
   association list with dict upsert semantics (an existing key keeps its
   position and has its value replaced). -/

/-- `RATING_BRACKETS` (sample_data.py lines 16-22). -/
def ratingBrackets : List (Int × Int × String) :=
  [(400, 1000, "Beginner"), (1000, 1400, "Intermediate"), (1400, 1800, "Advanced"),
   (1800, 2200, "Expert"), (2200, 3200, "Master")]

/-- `KEY_THEMES` (sample_data.py lines 62-69). -/
def keyThemes : List String :=
  ["mateIn1", "mateIn2", "mateIn3", "fork", "pin", "skewer", "discoveredAttack",
   "doubleCheck", "hangingPiece", "trappedPiece", "sacrifice", "deflection",
   "attraction", "backRankMate", "smotheredMate", "promotion", "xRayAttack"]

/-- The per-row ingestion filter of `create_puzzle_subset` (lines 100-107):
`if rating < rating_min or rating > rating_max: continue` — note the upper
bound is inclusive — then the optional any-theme filter (falsy
`themes_filter` disables it). -/
def ingestKeeps (ratingMin ratingMax : Int) (themesFilter : Option (List String))
    (row : PRow) : Bool :=
  !(decide (row.rating < ratingMin) || decide (ratingMax < row.rating)) &&
  (!(truthyList themesFilter) || (themesFilter.getD []).any (fun t => row.themes.contains t))

/-- The bracket a rating falls in: the first `(min_r, max_r, name)` of
`RATING_BRACKETS` with `min_r <= rating < max_r` (lines 109-112). -/
def bracketName (r : Int) : Option String :=
  (ratingBrackets.find? (fun b => decide (b.1 ≤ r) && decide (r < b.2.1))).map (fun b => b.2.2)

/-- `selected[key] = value` on a Python dict modelled as an association
list: replace in place if the key exists, else append. -/
def upsert : List (String × PRow) → String → PRow → List (String × PRow)
  | [], k, v => [(k, v)]
  | (k', v') :: rest, k, v =>
    if k' = k then (k', v) :: rest else (k', v') :: upsert rest k v

/-- `for p in sample: selected[p['PuzzleId']] = p` (lines 160-162, 172-174). -/
def dictInsertAll (sel : List (String × PRow)) (ps : List PRow) : List (String × PRow) :=
  ps.foldl (fun s p => upsert s p.pid p) sel

/-- `sample_stratified(puzzles_by_bracket, puzzles_by_theme, total_puzzles)`
(lines 145-176): 60% of the budget drawn per rating bracket, then 40%
drawn per key theme from the rows not already selected; returns the dict.
`bracketBucket` / `themeBucket` are the two defaultdicts built during
ingestion. -/
def sampleStratified (samp : List PRow → Nat → List PRow)
    (bracketBucket : String → List PRow) (themeBucket : String → List PRow)
    (totalPuzzles : Nat) : List (String × PRow) :=
  let ratingBudget := 6 * totalPuzzles / 10
  let perBracket := ratingBudget / ratingBrackets.length
  let sel1 := ratingBrackets.foldl (fun sel b =>
    let available := bracketBucket b.2.2
    let sampleSize := min perBracket available.length
    if sampleSize > 0 then dictInsertAll sel (samp available sampleSize) else sel) []
  let themeBudget := 4 * totalPuzzles / 10
  let perTheme := themeBudget / keyThemes.length
  keyThemes.foldl (fun sel t =>
    let available := (themeBucket t).filter (fun p => !(sel.any (fun kv => kv.1 == p.pid)))
    let sampleSize := min perTheme available.length
    if sampleSize > 0 then dictInsertAll sel (samp available sampleSize) else sel) sel1

/-- `create_puzzle_subset` with `stratified=True` (lines 73-142): ingest the
corpus through the rating/theme filter, bucket it by rating bracket and by
key theme, sample stratified, and return the selected rows (the function's
return value `selected`; the CSV written to disk additionally sorts them —
same rows).  A row whose theme list named the same key theme twice would be
appended twice to that theme's bucket; the claims are membership
properties, for which the single filtered occurrence is equivalent. -/
def createPuzzleSubsetStratified (rows : List PRow) (ratingMin ratingMax : Int)
    (themesFilter : Option (List String)) (totalPuzzles : Nat)
    (samp : List PRow → Nat → List PRow) : List PRow :=
  let keep := rows.filter (ingestKeeps ratingMin ratingMax themesFilter)
  (sampleStratified samp
    (fun name => keep.filter (fun row => bracketName row.rating == some name))
    (fun t => keep.filter (fun row => row.themes.contains t))
    totalPuzzles).map (fun kv => kv.2)

/-- The C9 counterexample corpus: one puzzle rated exactly `rating_max`. -/
def cexRow : PRow := ⟨"P1", 1800, ["fork"]⟩

/- ===================== C1: minimax vs alpha-beta =====================
   Sources: src/src/search/minimax.py (MiniMaxSearch.search, _minimax,
   _quiescence, lines 20-135) and src/src/search/alphabeta.py
   (AlphaBetaSearch.search, _alpha_beta, _quiescence, lines 25-156).

   Both algorithms are parametric in the python-chess board: they read
   `board.turn`, `board.legal_moves`, `board.is_game_over()`,
   `board.is_capture(m)`, push/pop (functionally: a successor function) and
   a transposition key.  This interface is the structure `Game`.  The
   evaluator is the separate parameter `ev` ("constructed with the same
   evaluator"), and `_order_moves` appears as the parameter `ord` (each
   class has its own; the score claims only use that sorting permutes the
   move list).  Scores: evaluators return ints; `float('-inf')`/
   `float('inf')` appear only as loop accumulators and window bounds, so
   scores live in `Score := WithBot (WithTop ℤ)` with `⊥`/`⊤` as the
   infinities.  The quiescence recursion of both classes has no depth
   bound; it terminates in chess because every capture removes a piece.
   The embedding gives it an explicit `fuel`; at fuel 0 the capture list is
   treated as empty (the stand-pat path), which coincides with the Python
   behaviour whenever fuel exceeds the longest capture chain.  Both
   algorithms receive the same fuel.  `search(board, depth)` is modelled
   for `depth ≥ 1`: at depth 0 the Python code recurses on negative depths
   until the game tree or the interpreter stack ends. -/

/-- Search scores: integers extended with the two IEEE infinities used as
sentinels (`float('-inf')` = `⊥`, `float('inf')` = `⊤`). -/
abbrev Score := WithBot (WithTop ℤ)

/-- An evaluator result, injected into `Score`. -/
def intScore (z : ℤ) : Score := ((z : WithTop ℤ) : Score)

/-- The board interface the two search classes consume, with python-chess
behaviour abstracted: side to move, legal moves, successor, game-over test,
capture test, and transposition key (`board.transposition_key()`, or the
FEN fallback). -/
structure Game (σ μ κ : Type) where
  turnWhite : σ → Bool
  legalMoves : σ → List μ
  push : σ → μ → σ
  isGameOver : σ → Bool
  isCapture : σ → μ → Bool
  key : σ → κ

/-- The maximizing quiescence loop shared by both classes (minimax.py lines
108-121, alphabeta.py lines 135-145): for each capture successor compute a
score, return `beta` on `score >= beta`, else raise `alpha`.  The
per-child score computation (including minimax's repetition check) is the
parameter `rec`. -/
def abQLoopMax {σ : Type} (rec : σ → Score → Score) (beta : Score) :
    List σ → Score → Score
  | [], alpha => alpha
  | c :: cs, alpha =>
    let s := rec c alpha
    if beta ≤ s then beta else abQLoopMax rec beta cs (max alpha s)

/-- The minimizing quiescence loop (minimax.py lines 122-135, alphabeta.py
lines 146-156). -/
def abQLoopMin {σ : Type} (rec : σ → Score → Score) (alpha : Score) :
    List σ → Score → Score
  | [], beta => beta
  | c :: cs, beta =>
    let s := rec c beta
    if s ≤ alpha then alpha else abQLoopMin rec alpha cs (min beta s)

/-- `AlphaBetaSearch._quiescence` (alphabeta.py lines 109-156): stand pat,
then the capture-only loops, carrying the caller's window.  `fuel` bounds
the capture recursion (see the section comment). -/
def abQuiesce {σ μ κ : Type} (g : Game σ μ κ) (ev : σ → ℕ → ℤ)
    (ord : σ → List μ → List μ) :
    ℕ → σ → Score → Score → Bool → ℕ → Score
  | 0, s, alpha, beta, maxi, ply =>
    let sp := intScore (ev s ply)
    if maxi then (if beta ≤ sp then beta else max alpha sp)
    else (if sp ≤ alpha then alpha else min beta sp)
  | fuel + 1, s, alpha, beta, maxi, ply =>
    let sp := intScore (ev s ply)
    let caps := (ord s ((g.legalMoves s).filter (fun m => g.isCapture s m))).map (g.push s)
    if maxi then
      if beta ≤ sp then beta
      else abQLoopMax (fun c a => abQuiesce g ev ord fuel c a beta false (ply + 1))
        beta caps (max alpha sp)
    else
      if sp ≤ alpha then alpha
      else abQLoopMin (fun c b => abQuiesce g ev ord fuel c alpha b true (ply + 1))
        alpha caps (min beta sp)

/-- `MiniMaxSearch._quiescence` (minimax.py lines 92-135): same structure,
but each capture child's key is tested against the search path
(`path_keys`): a repeat scores 0, otherwise the recursion proceeds with
the child's key added to the path. -/
def mmQuiesce {σ μ κ : Type} [DecidableEq κ] (g : Game σ μ κ) (ev : σ → ℕ → ℤ)
    (ord : σ → List μ → List μ) :
    ℕ → σ → Score → Score → Bool → ℕ → List κ → Score
  | 0, s, alpha, beta, maxi, ply, _ =>
    let sp := intScore (ev s ply)
    if maxi then (if beta ≤ sp then beta else max alpha sp)
    else (if sp ≤ alpha then alpha else min beta sp)
  | fuel + 1, s, alpha, beta, maxi, ply, path =>
    let sp := intScore (ev s ply)
    let caps := (ord s ((g.legalMoves s).filter (fun m => g.isCapture s m))).map (g.push s)
    if maxi then
      if beta ≤ sp then beta
      else abQLoopMax (fun c a =>
          if g.key c ∈ path then intScore 0
          else mmQuiesce g ev ord fuel c a beta false (ply + 1) (g.key c :: path))
        beta caps (max alpha sp)
    else
      if sp ≤ alpha then alpha
      else abQLoopMin (fun c b =>
          if g.key c ∈ path then intScore 0
          else mmQuiesce g ev ord fuel c alpha b true (ply + 1) (g.key c :: path))
        alpha caps (min beta sp)

/-- `MiniMaxSearch._minimax` (minimax.py lines 50-90): repetition check on
the node's own key against the path, then game-over evaluation, quiescence
at depth 0 (with a fresh full window), else plain max/min over the ordered
children with the node's key on the path. -/
def mmGo {σ μ κ : Type} [DecidableEq κ] (g : Game σ μ κ) (ev : σ → ℕ → ℤ)
    (ord : σ → List μ → List μ) :
    ℕ → ℕ → σ → Bool → ℕ → List κ → Score
  | 0, fuel, s, maxi, ply, path =>
    if g.key s ∈ path then intScore 0
    else if g.isGameOver s then intScore (ev s ply)
    else mmQuiesce g ev ord fuel s ⊥ ⊤ maxi ply (g.key s :: path)
  | d + 1, fuel, s, maxi, ply, path =>
    if g.key s ∈ path then intScore 0
    else if g.isGameOver s then intScore (ev s ply)
    else
      let children := (ord s (g.legalMoves s)).map (g.push s)
      if maxi then
        children.foldl (fun acc c =>
          max acc (mmGo g ev ord d fuel c false (ply + 1) (g.key s :: path))) ⊥
      else
        children.foldl (fun acc c =>
          min acc (mmGo g ev ord d fuel c true (ply + 1) (g.key s :: path))) ⊤

/-- The root loop of `MiniMaxSearch.search` (minimax.py lines 33-46):
strict improvement updates the best move; the maximizing flag passed down
is the pushed board's `turn == WHITE`. -/
def mmRootLoop {σ μ κ : Type} [DecidableEq κ] (g : Game σ μ κ) (ev : σ → ℕ → ℤ)
    (ord : σ → List μ → List μ) (depth fuel : ℕ) (s : σ) (rootPath : List κ) :
    List μ → Option μ × Score → Option μ × Score
  | [], best => best
  | m :: ms, best =>
    let c := g.push s m
    let v := mmGo g ev ord depth fuel c (g.turnWhite c) 1 rootPath
    let best2 :=
      if g.turnWhite s then (if best.2 < v then (some m, v) else best)
      else (if v < best.2 then (some m, v) else best)
    mmRootLoop g ev ord depth fuel s rootPath ms best2

/-- `MiniMaxSearch.search(board, depth)` (minimax.py lines 20-48): order
the root moves, seed the path with the root key, loop.  Faithful for
`depth ≥ 1` (see the section comment). -/
def minimaxSearch {σ μ κ : Type} [DecidableEq κ] (g : Game σ μ κ) (ev : σ → ℕ → ℤ)
    (ord : σ → List μ → List μ) (s : σ) (depth fuel : ℕ) : Option μ × Score :=
  mmRootLoop g ev ord (depth - 1) fuel s [g.key s] (ord s (g.legalMoves s))
    (none, if g.turnWhite s then ⊥ else ⊤)

/-- The maximizing inner loop of `_alpha_beta` (alphabeta.py lines 84-95):
track `max_eval` and `alpha`, break on `beta <= alpha`, return `max_eval`. -/
def abLoopMax {σ : Type} (rec : σ → Score → Score) (beta : Score) :
    List σ → Score → Score → Score
  | [], maxEval, _ => maxEval
  | c :: cs, maxEval, alpha =>
    let s := rec c alpha
    let m2 := max maxEval s
    let a2 := max alpha s
    if beta ≤ a2 then m2 else abLoopMax rec beta cs m2 a2

/-- The minimizing inner loop of `_alpha_beta` (alphabeta.py lines 96-107). -/
def abLoopMin {σ : Type} (rec : σ → Score → Score) (alpha : Score) :
    List σ → Score → Score → Score
  | [], minEval, _ => minEval
  | c :: cs, minEval, beta =>
    let s := rec c beta
    let m2 := min minEval s
    let b2 := min beta s
    if b2 ≤ alpha then m2 else abLoopMin rec alpha cs m2 b2

/-- `AlphaBetaSearch._alpha_beta` (alphabeta.py lines 68-107): game-over
evaluation, quiescence at depth 0 inheriting the window, else the pruning
loops over the ordered children.  No repetition logic of any kind. -/
def abGo {σ μ κ : Type} (g : Game σ μ κ) (ev : σ → ℕ → ℤ)
    (ord : σ → List μ → List μ) :
    ℕ → ℕ → σ → Score → Score → Bool → ℕ → Score
  | 0, fuel, s, alpha, beta, maxi, ply =>
    if g.isGameOver s then intScore (ev s ply)
    else abQuiesce g ev ord fuel s alpha beta maxi ply
  | d + 1, fuel, s, alpha, beta, maxi, ply =>
    if g.isGameOver s then intScore (ev s ply)
    else
      let children := (ord s (g.legalMoves s)).map (g.push s)
      if maxi then
        abLoopMax (fun c a => abGo g ev ord d fuel c a beta false (ply + 1))
          beta children ⊥ alpha
      else
        abLoopMin (fun c b => abGo g ev ord d fuel c alpha b true (ply + 1))
          alpha children ⊤ beta

/-- The root loop of `AlphaBetaSearch.search` (alphabeta.py lines 40-64):
strict improvement updates the best move; White raises `alpha`, Black
lowers `beta`; there is no cutoff at the root. -/
def abRootLoop {σ μ κ : Type} (g : Game σ μ κ) (ev : σ → ℕ → ℤ)
    (ord : σ → List μ → List μ) (depth fuel : ℕ) (s : σ) :
    List μ → Option μ × Score → Score → Score → Option μ × Score
  | [], best, _, _ => best
  | m :: ms, best, alpha, beta =>
    let c := g.push s m
    let v := abGo g ev ord depth fuel c alpha beta (g.turnWhite c) 1
    if g.turnWhite s then
      abRootLoop g ev ord depth fuel s ms
        (if best.2 < v then (some m, v) else best) (max alpha v) beta
    else
      abRootLoop g ev ord depth fuel s ms
        (if v < best.2 then (some m, v) else best) alpha (min beta v)

/-- `AlphaBetaSearch.search(board, depth)` (alphabeta.py lines 25-66).
Faithful for `depth ≥ 1` (see the section comment). -/
def alphaBetaSearch {σ μ κ : Type} (g : Game σ μ κ) (ev : σ → ℕ → ℤ)
    (ord : σ → List μ → List μ) (s : σ) (depth fuel : ℕ) : Option μ × Score :=
  abRootLoop g ev ord (depth - 1) fuel s (ord s (g.legalMoves s))
    (none, if g.turnWhite s then ⊥ else ⊤) ⊥ ⊤

/-- Reference quiescence value: the full-window stand-pat/capture minimax
value, over the raw (unordered) capture list. -/
def qVal {σ μ κ : Type} (g : Game σ μ κ) (ev : σ → ℕ → ℤ) :
    ℕ → σ → Bool → ℕ → Score
  | 0, s, _, ply => intScore (ev s ply)
  | fuel + 1, s, maxi, ply =>
    let sp := intScore (ev s ply)
    let caps := ((g.legalMoves s).filter (fun m => g.isCapture s m)).map (g.push s)
    if maxi then caps.foldl (fun acc c => max acc (qVal g ev fuel c false (ply + 1))) sp
    else caps.foldl (fun acc c => min acc (qVal g ev fuel c true (ply + 1))) sp

/-- Reference search value: plain depth-limited minimax over the raw move
lists, with game-over evaluation and `qVal` leaves — the value both
algorithms compute when no repetition interferes. -/
def mVal {σ μ κ : Type} (g : Game σ μ κ) (ev : σ → ℕ → ℤ) :
    ℕ → ℕ → σ → Bool → ℕ → Score
  | 0, fuel, s, maxi, ply =>
    if g.isGameOver s then intScore (ev s ply) else qVal g ev fuel s maxi ply
  | d + 1, fuel, s, maxi, ply =>
    if g.isGameOver s then intScore (ev s ply)
    else
      let children := (g.legalMoves s).map (g.push s)
      if maxi then
        children.foldl (fun acc c => max acc (mVal g ev d fuel c false (ply + 1))) ⊥
      else
        children.foldl (fun acc c => min acc (mVal g ev d fuel c true (ply + 1))) ⊤

/-- No transposition-key repetition along any legal path of length ≤ n
from `s`, nor a hit on the ambient path `seen`: the condition under which
minimax's repetition checks never fire. -/
def keysDistinct {σ μ κ : Type} [DecidableEq κ] (g : Game σ μ κ) :
    ℕ → σ → List κ → Bool
  | 0, s, seen => !(decide (g.key s ∈ seen))
  | n + 1, s, seen =>
    !(decide (g.key s ∈ seen)) &&
      (g.legalMoves s).all (fun m => keysDistinct g n (g.push s m) (g.key s :: seen))

/-- Every position within `depth` plies that is not game over has at least
one legal move — true of chess (no legal moves implies checkmate or
stalemate, hence game over); rules out `±∞` search values. -/
def movesAvailable {σ μ κ : Type} (g : Game σ μ κ) : ℕ → σ → Bool
  | 0, _ => true
  | d + 1, s =>
    g.isGameOver s ||
      (!(g.legalMoves s).isEmpty &&
        (g.legalMoves s).all (fun m => movesAvailable g d (g.push s m)))

/-- The identity move ordering: what Python's stable `sorted` returns
whenever all ordering scores coincide — in the concrete games below no
move is a capture or a promotion, so every score is 0 for both classes'
`_order_moves`. -/
def idOrd {σ μ : Type} (s : σ) (l : List μ) : List μ := l

/-- States of the C1 counterexample game: a 4-ply shuffle cycle
`root → na → nb → nc → root` (the knight-out-and-back pattern of chess:
each side moves a piece out and back, White on plies 1 and 3, Black on
plies 2 and 4) plus four terminal deviations `hd`, `he`, `hf`, `hg`. -/
inductive CexSt where
  | root | na | nb | nc | hd | he | hf | hg
deriving DecidableEq

/-- The counterexample game.  Moves are `Bool`: `true` continues the
cycle, `false` deviates into a terminal state.  White moves at `root` and
`nb`; no move is a capture; the four deviation states are game over. -/
def cexGame : Game CexSt Bool CexSt where
  turnWhite s :=
    match s with
    | .root => true | .na => false | .nb => true | .nc => false
    | .hd => false | .he => true | .hf => false | .hg => true
  legalMoves s :=
    match s with
    | .root => [true, false] | .na => [true, false]
    | .nb => [true, false] | .nc => [true, false]
    | _ => []
  push s m :=
    match s, m with
    | .root, true => .na | .root, false => .hd
    | .na, true => .nb | .na, false => .he
    | .nb, true => .nc | .nb, false => .hf
    | .nc, true => .root | .nc, false => .hg
    | t, _ => t
  isGameOver s :=
    match s with
    | .hd | .he | .hf | .hg => true
    | _ => false
  isCapture _ _ := false
  key s := s

/-- The counterexample evaluator (any Python callable of signature
`(board, ply)` is admissible for the claim): 3 at the root position, 2 /
5 / −10 / 10 at the four terminal deviations. -/
def cexEv : CexSt → ℕ → ℤ := fun s _ =>
  match s with
  | .root => 3 | .hd => 2 | .he => 5 | .hf => -10 | .hg => 10
  | _ => 0

/-- States of the C1 witness game: one move from `ws0` to the terminal
`ws1`. -/
inductive WitSt where
  | ws0 | ws1
deriving DecidableEq

/-- The witness game: a single legal move into a game-over state, distinct
keys everywhere. -/
def witGame : Game WitSt Unit WitSt where
  turnWhite s := match s with | .ws0 => true | .ws1 => false
  legalMoves s := match s with | .ws0 => [()] | .ws1 => []
  push _ _ := .ws1
  isGameOver s := match s with | .ws0 => false | .ws1 => true
  isCapture _ _ := false
  key s := s

/-- The witness evaluator: constant 7. -/
def witEv : WitSt → ℕ → ℤ := fun _ _ => 7

-- ===================== THEOREM ZONE =====================

/-- C2: `evaluate` returns 0 on stalemate or insufficient material, and on a
checkmate (of a chess-consistent position) returns `-(20000 - ply_from_root)`
when White is to move and `+(20000 - ply_from_root)` when Black is to move. -/
theorem evaluate_terminal_correct (p : EvalPosition) (ply : Nat)
    (hc : p.consistent) :
    ((p.isStalemate = true ∨ p.isInsufficientMaterial = true) →
        evaluateFn p ply = 0) ∧
    (p.isCheckmate = true →
        evaluateFn p ply =
          if p.turnWhite then -(20000 - (ply : Int)) else (20000 - (ply : Int))) := by
  constructor
  · intro h
    unfold evaluateFn
    rcases h with h | h <;> simp [h]
  · intro h
    obtain ⟨h1, h2⟩ := hc h
    simp [evaluateFn, h, h1, h2]
    split <;> ring

/-- C2 witness: a concrete checkmated position (White to move, mated at ply 3)
and a concrete stalemate position evaluate as stated. -/
theorem evaluate_terminal_correct_witness :
    evaluateFn ⟨false, false, true, true, 123⟩ 3 = -(20000 - (3 : Int)) ∧
    evaluateFn ⟨true, false, false, false, 55⟩ 7 = 0 := by
  have h1 := evaluate_terminal_correct ⟨false, false, true, true, 123⟩ 3
    (by intro h; exact ⟨rfl, rfl⟩)
  have h2 := evaluate_terminal_correct ⟨true, false, false, false, 55⟩ 7
    (by intro h; simp at h)
  constructor
  · have h3 := h1.2 rfl
    simpa using h3
  · exact h2.1 (Or.inl rfl)

/-- C3: the code, evaluated at the failing input. If the agent's
`choose_move` raises, the `except` branch of `_evaluate_puzzle` itself
raises a TypeError (it passes the non-field keyword `puzzle` and omits the
required fields `eval_score` and `nodes_searched`), so no `PuzzleResult` is
recorded and the batch loop in `evaluate` aborts instead of continuing. -/
theorem evaluate_puzzle_exception_aborts :
    evaluatePuzzleRaises true = true ∧
    evaluateBatchAborts [false, true, false] = true := by
  constructor <;> decide

/-- C4: the code, evaluated at the failing input. The base-class episode
hooks are declared without `self` (0 parameters), so the uniform calls in
`play_game` raise a TypeError for any agent that does not override them,
while the learning agents' override (1 parameter) is callable. -/
theorem play_game_hooks_typeerror :
    playGameHooksOk baseStartEpisodeParams baseStartEpisodeParams = false ∧
    boundMethodCallOk baseStopEpisodeParams = false ∧
    boundMethodCallOk reinforcementStartEpisodeParams = true := by
  decide

/-- C8: a single Elo update conserves the rating sum for any score split
in {1, 1/2, 0} (the two expected scores are complementary), and in the
concrete case of two 1200-rated players with K = 20 and a win for A the
new ratings are 1210 and 1190. -/
theorem update_elo_conserves_sum (rA rB k scoreA : ℝ)
    (hs : scoreA = 1 ∨ scoreA = 1 / 2 ∨ scoreA = 0) :
    (updateElo rA rB scoreA k).1 + (updateElo rA rB scoreA k).2 = rA + rB ∧
    updateElo 1200 1200 1 20 = (1210, 1190) := by
  clear hs
  have hcompl : ∀ x y : ℝ, expectedScore x y + expectedScore y x = 1 := by
    intro x y
    unfold expectedScore
    have hxy : (x - y) / 400 = -((y - x) / 400) := by ring
    rw [hxy, Real.rpow_neg (by norm_num : (0:ℝ) ≤ 10)]
    have h1 : (0 : ℝ) < (10 : ℝ) ^ ((y - x) / 400) :=
      Real.rpow_pos_of_pos (by norm_num) _
    have h2 : (10 : ℝ) ^ ((y - x) / 400) ≠ 0 := ne_of_gt h1
    have h3 : 1 + (10 : ℝ) ^ ((y - x) / 400) ≠ 0 := by positivity
    have h4 : 1 + ((10 : ℝ) ^ ((y - x) / 400))⁻¹ ≠ 0 := by positivity
    field_simp
    ring
  constructor
  · have h := hcompl rA rB
    dsimp only [updateElo]
    linear_combination (-k) * h
  · have hzero : expectedScore 1200 1200 = 1 / 2 := by
      unfold expectedScore
      have hz : ((1200 : ℝ) - 1200) / 400 = 0 := by norm_num
      rw [hz, Real.rpow_zero]
      norm_num
    unfold updateElo
    rw [hzero]
    norm_num

/-- C8 witness: the conservation statement at the concrete inputs
rA = 1200, rB = 1200, k = 20, scoreA = 1. -/
theorem update_elo_conserves_sum_witness :
    (updateElo 1200 1200 1 20).1 + (updateElo 1200 1200 1 20).2 = 1200 + 1200 ∧
    updateElo 1200 1200 1 20 = (1210, 1190) := by
  have h := update_elo_conserves_sum 1200 1200 20 1 (Or.inl rfl)
  exact ⟨by rw [h.2]; norm_num, h.2⟩

/-- C10: passing `min_rating=0`, `max_rating=0` or an empty theme list to
the loader disables the corresponding filter entirely (the guards test
Python truthiness, not presence), both at the level of `_passes_filters`
and of `load`. -/
theorem loader_zero_disables_filters (p : PRow) (rows : List PRow)
    (minR maxR : Option Int) (themes : Option (List String))
    (limit : Option Nat) (cf : Option (PRow → Bool)) :
    passesFilters p (some 0) maxR themes cf = passesFilters p none maxR themes cf ∧
    passesFilters p minR (some 0) themes cf = passesFilters p minR none themes cf ∧
    passesFilters p minR maxR (some []) cf = passesFilters p minR maxR none cf ∧
    loadModel rows (some 0) maxR themes limit cf = loadModel rows none maxR themes limit cf ∧
    loadModel rows minR (some 0) themes limit cf = loadModel rows minR none themes limit cf ∧
    loadModel rows minR maxR (some []) limit cf = loadModel rows minR maxR none limit cf := by
  have hmin : ∀ q : PRow, passesFilters q (some 0) maxR themes cf = passesFilters q none maxR themes cf := by
    intro q; simp [passesFilters, truthyInt]
  have hmax : ∀ q : PRow, passesFilters q minR (some 0) themes cf = passesFilters q minR none themes cf := by
    intro q; simp [passesFilters, truthyInt]
  have hth : ∀ q : PRow, passesFilters q minR maxR (some []) cf = passesFilters q minR maxR none cf := by
    intro q; simp [passesFilters, truthyList]
  refine ⟨hmin p, hmax p, hth p, ?_, ?_, ?_⟩
  · unfold loadModel
    generalize 0 = n
    induction rows generalizing n with
    | nil => simp [loadRows]
    | cons r rs ih => simp only [loadRows, hmin r]; split <;> simp_all
  · unfold loadModel
    generalize 0 = n
    induction rows generalizing n with
    | nil => simp [loadRows]
    | cons r rs ih => simp only [loadRows, hmax r]; split <;> simp_all
  · unfold loadModel
    generalize 0 = n
    induction rows generalizing n with
    | nil => simp [loadRows]
    | cons r rs ih => simp only [loadRows, hth r]; split <;> simp_all

/-- Pushing and immediately popping a move restores the board exactly. -/
theorem push_pop_id {π μ : Type} (apply : BoardCore π → μ → BoardCore π)
    (b : BoardState π μ) (m : μ) : (b.push apply m).pop = b := by
  cases b
  rfl

/-- Folding push-then-pop over any move list leaves the board unchanged. -/
theorem foldl_push_pop_id {π μ : Type} (apply : BoardCore π → μ → BoardCore π)
    (l : List μ) (b : BoardState π μ) :
    l.foldl (fun bb m => (bb.push apply m).pop) b = b := by
  induction l generalizing b with
  | nil => rfl
  | cons m ms ih =>
    have h : (b.push apply m).pop = b := push_pop_id apply b m
    rw [List.foldl_cons, h]
    exact ih b

/-- C5 counterexample: the claim "choose_move leaves the position unchanged
(same piece placement, same side to move, same move stack)" fails for
`QLearningAgent.choose_move` on a concrete Black-to-move board handed to a
White agent: the call flips `board.turn` to White. -/
theorem qlearning_choose_move_mutates_turn :
    (qlChooseMoveBoard (fun c _ => ⟨c.pos + 1, !c.turnWhite⟩) (fun _ => [0])
        (fun _ => false) true false ⟨⟨(0 : Nat), false⟩, ([] : List (Nat × BoardCore Nat))⟩).core.turnWhite ≠
      (⟨⟨(0 : Nat), false⟩, []⟩ : BoardState Nat Nat).core.turnWhite := by
  decide

/-- C5 amended: `QLearningAgent.choose_move` preserves the piece placement
and the move stack, but always sets the side to move to the agent's colour
(`board.turn = self.color` in `getAction`); the position is therefore left
unchanged exactly when it was already the agent's turn. -/
theorem qlearning_choose_move_board_effect {π μ : Type}
    (apply : BoardCore π → μ → BoardCore π) (legalMoves : BoardCore π → List μ)
    (gameOver : BoardCore π → Bool) (color explore : Bool) (b : BoardState π μ) :
    qlChooseMoveBoard apply legalMoves gameOver color explore b = b.setTurn color := by
  unfold qlChooseMoveBoard qlGetActionBoard qlComputeActionBoard
  have hset : (b.setTurn color).setTurn color = b.setTurn color := rfl
  by_cases he : explore
  · simp [he]
  · simp only [he, if_false, Bool.false_eq_true]
    rw [hset]
    split
    · rfl
    · exact foldl_push_pop_id apply _ _

/-- C6 counterexample: on a concrete board (placement counter 0, evaluation
= placement, no opponent reply, discount 9/10) the value returned by
`computeQValueFromValues` differs from the spec's formula
`evaluate(position-after-action) + discount × opponent_effective_value`:
the code evaluates the board after the final pop, i.e. the position
*before* the action. -/
theorem vi_computeq_not_spec :
    ((@viComputeQFromValues Nat Unit Nat (fun c _ => ⟨c.pos + 1, !c.turnWhite⟩) (fun _ => [])
        (fun c => c.pos) (fun _ => 0) (fun c => (c.pos : ℚ)) (9 / 10) true
        ⟨⟨(0 : Nat), true⟩, ([] : List (Unit × BoardCore Nat))⟩ ()).2 : ℚ) ≠
      @viComputeQSpecValue Nat Unit Nat (fun c _ => ⟨c.pos + 1, !c.turnWhite⟩) (fun _ => [])
        (fun c => c.pos) (fun _ => 0) (fun c => (c.pos : ℚ)) (9 / 10) true
        ⟨⟨(0 : Nat), true⟩, ([] : List (Unit × BoardCore Nat))⟩ () := by
  simp only [viComputeQFromValues, viComputeQSpecValue, BoardState.push,
    BoardState.setTurn, BoardState.pop]
  norm_num

/-- C6 amended: `computeQValueFromValues(board, action)` restores the board
exactly before returning (the final pop reinstates the snapshot taken by
the push, including the forced turn), and returns
`evaluate(original position) + discount × opponent_effective_value`, where
the opponent value is the min of the reply values when the agent plays
Black and the max when it plays White (the table value of the reached
position when there is no reply). -/
theorem vi_computeq_correct {π μ κ : Type} (apply : BoardCore π → μ → BoardCore π)
    (legalMoves : BoardCore π → List μ) (fen : BoardCore π → κ)
    (getValue : κ → ℚ) (evalBoard : BoardCore π → ℚ) (discount : ℚ)
    (color : Bool) (b : BoardState π μ) (action : μ) :
    viComputeQFromValues apply legalMoves fen getValue evalBoard discount color b action =
      (b, evalBoard b.core +
            discount * viOppValue apply legalMoves fen getValue color b action) := by
  cases b
  rfl

/-- C7 counterexample: for a concrete capture that exactly reverses the
previous move (knight retakes a pawn, squares 2 → 1 after a previous move
1 → 2), `AlphaBetaSearch`'s own move ordering applies no penalty at all
(same score as with an empty move stack), and `MiniMaxSearch`'s and
`ExpectimaxSearch`'s own orderings subtract 100 rather than 200 — so the
claimed −200 penalty holds for none of the three search algorithms'
orderings. -/
theorem score_move_penalties_differ :
    scoreMoveAB ctxReversingCapture = scoreMoveAB ctxPlainCapture ∧
    scoreMoveMM ctxReversingCapture = scoreMoveMM ctxPlainCapture - 100 ∧
    scoreMoveEM ctxReversingCapture = scoreMoveEM ctxPlainCapture - 100 ∧
    scoreMoveBase ctxReversingCapture = scoreMoveBase ctxPlainCapture - 200 := by
  decide

/-- C7 amended: the −200 reversal penalty and the additional −60 king
penalty belong only to the shared default ordering
`SearchAlgorithm._score_move`, which none of the three search algorithms
uses (each overrides `_order_moves` with its own scorer);
`MiniMaxSearch`'s and `ExpectimaxSearch`'s orderings instead subtract 100
and 30 (and only on non-en-passant captures), and `AlphaBetaSearch`'s
applies no such penalties. -/
theorem score_move_penalties (ctx : MoveCtx) (hc : ctx.isCapture = true) :
    (scoreMoveBase ctx =
      (if ctx.isEnPassant then 105
       else 10 * ((ctx.victim.map pieceValue).getD 0) - (ctx.fromPiece.map pieceValue).getD 0)
      - (if reversesLast ctx then 200 else 0)
      - (if ctx.fromPiece = some PieceKind.king then 60 else 0)) ∧
    (ctx.isEnPassant = false →
      scoreMoveMM ctx =
        (10 * ((ctx.victim.map pieceValue).getD 0) - (ctx.fromPiece.map pieceValue).getD 0)
        - (if reversesLast ctx then 100 else 0)
        - (if ctx.fromPiece = some PieceKind.king then 30 else 0)) ∧
    (ctx.isEnPassant = false →
      scoreMoveEM ctx =
        (10 * ((ctx.victim.map pieceValue).getD 0) - (ctx.fromPiece.map pieceValue).getD 0)
        - (if reversesLast ctx then 100 else 0)
        - (if ctx.fromPiece = some PieceKind.king then 30 else 0)) ∧
    (scoreMoveAB ctx =
      if ctx.isEnPassant then 105
      else 10 * ((ctx.victim.map pieceValue).getD 0) - (ctx.fromPiece.map pieceValue).getD 0) := by
  refine ⟨?_, ?_, ?_, ?_⟩
  · unfold scoreMoveBase
    simp only [hc, if_true]
    split <;> split <;> simp
  · intro hep
    unfold scoreMoveMM
    simp only [hc, hep, if_true, Bool.false_eq_true, if_false]
    split <;> split <;> simp
  · intro hep
    unfold scoreMoveEM
    simp only [hc, hep, if_true, Bool.false_eq_true, if_false]
    split <;> split <;> simp
  · unfold scoreMoveAB
    simp only [hc, if_true]

/-- C7 amended witness: the amended statement evaluated on the concrete
reversing king capture (king takes pawn back along the previous move):
−200 − 60 in the unused base scorer, −100 − 30 in Expectimax's own. -/
theorem score_move_penalties_witness :
    (⟨true, false, some PieceKind.king, some PieceKind.pawn, 2, 1, false,
        some (1, 2)⟩ : MoveCtx).isCapture = true ∧
    scoreMoveBase ⟨true, false, some PieceKind.king, some PieceKind.pawn, 2, 1, false,
        some (1, 2)⟩ =
      (10 * 100 - 20000) - 200 - 60 ∧
    scoreMoveEM ⟨true, false, some PieceKind.king, some PieceKind.pawn, 2, 1, false,
        some (1, 2)⟩ =
      (10 * 100 - 20000) - 100 - 30 := by
  have h := score_move_penalties
    ⟨true, false, some PieceKind.king, some PieceKind.pawn, 2, 1, false, some (1, 2)⟩ rfl
  refine ⟨rfl, ?_, ?_⟩
  · rw [h.1]
    decide
  · rw [h.2.2.1 rfl]
    decide

/-- Membership after a dict upsert: the new pair or an old one. -/
theorem upsert_mem (sel : List (String × PRow)) (k : String) (v : PRow) :
    ∀ x ∈ upsert sel k v, x = (k, v) ∨ x ∈ sel := by
  induction sel with
  | nil =>
    intro x hx
    simp only [upsert, List.mem_singleton] at hx
    exact Or.inl hx
  | cons kv rest ih =>
    obtain ⟨k', v'⟩ := kv
    intro x hx
    simp only [upsert] at hx
    split at hx
    · rename_i hkk
      rcases List.mem_cons.mp hx with h | h
      · exact Or.inl (by rw [h, hkk])
      · exact Or.inr (List.mem_cons_of_mem _ h)
    · rcases List.mem_cons.mp hx with h | h
      · exact Or.inr (h ▸ List.mem_cons_self _ _)
      · rcases ih x h with h2 | h2
        · exact Or.inl h2
        · exact Or.inr (List.mem_cons_of_mem _ h2)

/-- A key present after an upsert is the inserted key or an old key. -/
theorem upsert_keys_mem (sel : List (String × PRow)) (k : String) (v : PRow) :
    ∀ x ∈ (upsert sel k v).map Prod.fst, x = k ∨ x ∈ sel.map Prod.fst := by
  intro x hx
  rcases List.mem_map.mp hx with ⟨kv, hkv, rfl⟩
  rcases upsert_mem sel k v kv hkv with h | h
  · exact Or.inl (by rw [h])
  · exact Or.inr (List.mem_map_of_mem _ h)

/-- Dict upsert preserves distinctness of the keys. -/
theorem upsert_keys_nodup (sel : List (String × PRow)) (k : String) (v : PRow)
    (h : (sel.map Prod.fst).Nodup) : ((upsert sel k v).map Prod.fst).Nodup := by
  induction sel with
  | nil => simp [upsert]
  | cons kv rest ih =>
    obtain ⟨k', v'⟩ := kv
    simp only [List.map_cons, List.nodup_cons] at h
    obtain ⟨hni, hnd⟩ := h
    simp only [upsert]
    split
    · simp only [List.map_cons, List.nodup_cons]
      exact ⟨hni, hnd⟩
    · rename_i hne
      simp only [List.map_cons, List.nodup_cons]
      refine ⟨?_, ih hnd⟩
      intro hmem
      rcases upsert_keys_mem rest k v k' hmem with h1 | h1
      · exact hne h1
      · exact hni h1

/-- Inserting rows satisfying `Q` into a dict whose keys are distinct and
whose entries pair each row with its own id (and satisfy `Q`) preserves all
three properties. -/
theorem dictInsertAll_inv (Q : PRow → Prop) (ps : List PRow) :
    ∀ sel, (sel.map Prod.fst).Nodup → (∀ kv ∈ sel, kv.1 = kv.2.pid ∧ Q kv.2) →
      (∀ p ∈ ps, Q p) →
      ((dictInsertAll sel ps).map Prod.fst).Nodup ∧
        ∀ kv ∈ dictInsertAll sel ps, kv.1 = kv.2.pid ∧ Q kv.2 := by
  induction ps with
  | nil => intro sel h1 h2 _; exact ⟨h1, h2⟩
  | cons p rest ih =>
    intro sel h1 h2 hq
    have hstep1 := upsert_keys_nodup sel p.pid p h1
    have hstep2 : ∀ kv ∈ upsert sel p.pid p, kv.1 = kv.2.pid ∧ Q kv.2 := by
      intro kv hkv
      rcases upsert_mem sel p.pid p kv hkv with h | h
      · rw [h]; exact ⟨rfl, hq p (List.mem_cons_self _ _)⟩
      · exact h2 kv h
    have hrec := ih (upsert sel p.pid p) hstep1 hstep2
      (fun x hx => hq x (List.mem_cons_of_mem _ hx))
    simpa [dictInsertAll] using hrec

/-- An invariant preserved by each step of a fold is preserved by the fold. -/
theorem foldl_preserves {β : Type} (Inv : List (String × PRow) → Prop)
    (f : List (String × PRow) → β → List (String × PRow))
    (hstep : ∀ s b, Inv s → Inv (f s b)) :
    ∀ (l : List β) (s : List (String × PRow)), Inv s → Inv (l.foldl f s) := by
  intro l
  induction l with
  | nil => intro s h; exact h
  | cons b rest ih => intro s h; exact ih (f s b) (hstep s b h)

/-- C9 amended: for every corpus and sampler drawing from its input (as
`random.sample` does), the stratified subset contains no two rows with the
same puzzle id, and every sampled row's rating lies in the CLOSED interval
`[rating_min, rating_max]` — the ingestion filter keeps `rating ==
rating_max`, so the upper bound is inclusive, not exclusive. -/
theorem sampler_nodup_and_rating_bounds (rows : List PRow) (ratingMin ratingMax : Int)
    (tf : Option (List String)) (total : Nat) (samp : List PRow → Nat → List PRow)
    (hs : ∀ l k, ∀ x ∈ samp l k, x ∈ l) :
    ((createPuzzleSubsetStratified rows ratingMin ratingMax tf total samp).map PRow.pid).Nodup ∧
    ∀ p ∈ createPuzzleSubsetStratified rows ratingMin ratingMax tf total samp,
      ratingMin ≤ p.rating ∧ p.rating ≤ ratingMax := by
  set keep := rows.filter (ingestKeeps ratingMin ratingMax tf) with hkeep
  set Inv : List (String × PRow) → Prop := fun sel =>
    (sel.map Prod.fst).Nodup ∧ ∀ kv ∈ sel, kv.1 = kv.2.pid ∧ kv.2 ∈ keep with hInvDef
  have hmain : Inv (sampleStratified samp
      (fun name => keep.filter (fun row => bracketName row.rating == some name))
      (fun t => keep.filter (fun row => row.themes.contains t)) total) := by
    unfold sampleStratified
    apply foldl_preserves Inv
    · intro s t hin
      dsimp only
      split
      · apply And.intro ((dictInsertAll_inv _ _ s hin.1 hin.2 ?_).1)
          ((dictInsertAll_inv _ _ s hin.1 hin.2 ?_).2) <;>
        · intro p hp
          have h1 := hs _ _ p hp
          have h2 := (List.mem_filter.mp h1).1
          exact (List.mem_filter.mp h2).1
      · exact hin
    · apply foldl_preserves Inv
      · intro s b hin
        dsimp only
        split
        · apply And.intro ((dictInsertAll_inv _ _ s hin.1 hin.2 ?_).1)
            ((dictInsertAll_inv _ _ s hin.1 hin.2 ?_).2) <;>
          · intro p hp
            have h1 := hs _ _ p hp
            exact (List.mem_filter.mp h1).1
        · exact hin
      · exact ⟨List.nodup_nil, by intro kv hkv; cases hkv⟩
  constructor
  · have h2 : (createPuzzleSubsetStratified rows ratingMin ratingMax tf total samp).map PRow.pid
        = (sampleStratified samp
            (fun name => keep.filter (fun row => bracketName row.rating == some name))
            (fun t => keep.filter (fun row => row.themes.contains t)) total).map Prod.fst := by
      unfold createPuzzleSubsetStratified
      rw [List.map_map]
      exact List.map_congr_left (fun kv hkv => ((hmain.2 kv hkv).1).symm)
    rw [h2]
    exact hmain.1
  · intro p hp
    unfold createPuzzleSubsetStratified at hp
    rcases List.mem_map.mp hp with ⟨kv, hkv, rfl⟩
    have hQp := (hmain.2 kv hkv).2
    have hflt := (List.mem_filter.mp hQp).2
    simp only [ingestKeeps, Bool.and_eq_true, Bool.not_eq_true', Bool.or_eq_false_iff,
      decide_eq_false_iff_not] at hflt
    exact ⟨le_of_not_lt hflt.1.1, le_of_not_lt hflt.1.2⟩

/-- C9 witness: the amended statement at a concrete corpus, bounds 400-3200,
with the sampler `take` (which draws from its input). -/
theorem sampler_nodup_and_rating_bounds_witness :
    ((createPuzzleSubsetStratified [cexRow] 400 3200 none 2000
        (fun l k => l.take k)).map PRow.pid).Nodup ∧
    ∀ p ∈ createPuzzleSubsetStratified [cexRow] 400 3200 none 2000 (fun l k => l.take k),
      (400 : Int) ≤ p.rating ∧ p.rating ≤ 3200 :=
  sampler_nodup_and_rating_bounds [cexRow] 400 3200 none 2000 (fun l k => l.take k)
    (fun l k x hx => List.take_subset k l hx)

/-- C9 counterexample: with `rating_min = 400`, `rating_max = 1800` and a
corpus holding one puzzle rated exactly 1800 (theme "fork"), the sampler
returns that puzzle — its rating equals `rating_max`, refuting the claimed
half-open interval `[rating_min, rating_max)`.  (`random.sample` from a
one-element list is that element regardless of the seed; `take` realizes
it.) -/
theorem sampler_rating_max_included :
    (createPuzzleSubsetStratified [cexRow] 400 1800 none 2000
        (fun l k => l.take k)).map PRow.rating = [1800] ∧
    ¬(∀ p ∈ createPuzzleSubsetStratified [cexRow] 400 1800 none 2000
        (fun l k => l.take k), p.rating < 1800) := by
  constructor
  · rfl
  · intro h
    have hmem : cexRow ∈ createPuzzleSubsetStratified [cexRow] 400 1800 none 2000
        (fun l k => l.take k) := by decide
    exact absurd (h cexRow hmem) (by decide)

/-- An evaluator score is never the `+∞` sentinel. -/
theorem intScore_ne_top (z : ℤ) : intScore z ≠ ⊤ := by
  intro h
  exact (WithTop.coe_ne_top (WithBot.coe_injective h))

/-- An evaluator score is never the `-∞` sentinel. -/
theorem intScore_ne_bot (z : ℤ) : intScore z ≠ ⊥ := WithBot.coe_ne_bot

/-- A max-fold only grows its accumulator. -/
theorem foldl_max_init_le {α : Type} (v : α → Score) :
    ∀ (l : List α) (i : Score), i ≤ l.foldl (fun a c => max a (v c)) i := by
  intro l
  induction l with
  | nil => intro i; exact le_rfl
  | cons c cs ih => intro i; exact le_trans (le_max_left _ _) (ih (max i (v c)))

/-- A min-fold only shrinks its accumulator. -/
theorem foldl_min_le_init {α : Type} (v : α → Score) :
    ∀ (l : List α) (i : Score), l.foldl (fun a c => min a (v c)) i ≤ i := by
  intro l
  induction l with
  | nil => intro i; exact le_rfl
  | cons c cs ih => intro i; exact le_trans (ih (min i (v c))) (min_le_left _ _)

/-- A max-fold is monotone in its accumulator. -/
theorem foldl_max_mono {α : Type} (v : α → Score) :
    ∀ (l : List α) {i j : Score}, i ≤ j →
      l.foldl (fun a c => max a (v c)) i ≤ l.foldl (fun a c => max a (v c)) j := by
  intro l
  induction l with
  | nil => intro i j h; exact h
  | cons c cs ih => intro i j h; exact ih (max_le_max h le_rfl)

/-- A min-fold is monotone in its accumulator. -/
theorem foldl_min_mono {α : Type} (v : α → Score) :
    ∀ (l : List α) {i j : Score}, i ≤ j →
      l.foldl (fun a c => min a (v c)) i ≤ l.foldl (fun a c => min a (v c)) j := by
  intro l
  induction l with
  | nil => intro i j h; exact h
  | cons c cs ih => intro i j h; exact ih (min_le_min h le_rfl)

/-- A max over the accumulator pulls out of a max-fold. -/
theorem foldl_max_pull {α : Type} (v : α → Score) :
    ∀ (l : List α) (a x : Score),
      l.foldl (fun acc c => max acc (v c)) (max a x) =
        max a (l.foldl (fun acc c => max acc (v c)) x) := by
  intro l
  induction l with
  | nil => intro a x; rfl
  | cons c cs ih =>
    intro a x
    simp only [List.foldl_cons]
    rw [max_assoc, ih]

/-- A min over the accumulator pulls out of a min-fold. -/
theorem foldl_min_pull {α : Type} (v : α → Score) :
    ∀ (l : List α) (a x : Score),
      l.foldl (fun acc c => min acc (v c)) (min a x) =
        min a (l.foldl (fun acc c => min acc (v c)) x) := by
  intro l
  induction l with
  | nil => intro a x; rfl
  | cons c cs ih =>
    intro a x
    simp only [List.foldl_cons]
    rw [min_assoc, ih]

/-- A max-fold of values below `b`, started below `b`, stays below `b`. -/
theorem foldl_max_ne_top {α : Type} (v : α → Score) :
    ∀ (l : List α) (i : Score), i ≠ ⊤ → (∀ c ∈ l, v c ≠ ⊤) →
      l.foldl (fun a c => max a (v c)) i ≠ ⊤ := by
  intro l
  induction l with
  | nil => intro i hi _; exact hi
  | cons c cs ih =>
    intro i hi hl
    refine ih (max i (v c)) ?_ (fun x hx => hl x (List.mem_cons_of_mem _ hx))
    rcases max_choice i (v c) with h | h <;> rw [h]
    · exact hi
    · exact hl c (List.mem_cons_self _ _)

/-- Dual of `foldl_max_ne_top`. -/
theorem foldl_min_ne_bot {α : Type} (v : α → Score) :
    ∀ (l : List α) (i : Score), i ≠ ⊥ → (∀ c ∈ l, v c ≠ ⊥) →
      l.foldl (fun a c => min a (v c)) i ≠ ⊥ := by
  intro l
  induction l with
  | nil => intro i hi _; exact hi
  | cons c cs ih =>
    intro i hi hl
    refine ih (min i (v c)) ?_ (fun x hx => hl x (List.mem_cons_of_mem _ hx))
    rcases min_choice i (v c) with h | h <;> rw [h]
    · exact hi
    · exact hl c (List.mem_cons_self _ _)

/-- A max-fold is invariant under permutation of the list. -/
theorem foldl_max_perm {α : Type} (v : α → Score) {l1 l2 : List α} (h : l1.Perm l2) :
    ∀ i, l1.foldl (fun a c => max a (v c)) i = l2.foldl (fun a c => max a (v c)) i := by
  intro i
  induction h generalizing i with
  | nil => rfl
  | cons x h ih => simp only [List.foldl_cons]; exact ih _
  | swap x y l =>
    simp only [List.foldl_cons]
    rw [sup_right_comm]
  | trans h1 h2 ih1 ih2 => rw [ih1, ih2]

/-- A min-fold is invariant under permutation of the list. -/
theorem foldl_min_perm {α : Type} (v : α → Score) {l1 l2 : List α} (h : l1.Perm l2) :
    ∀ i, l1.foldl (fun a c => min a (v c)) i = l2.foldl (fun a c => min a (v c)) i := by
  intro i
  induction h generalizing i with
  | nil => rfl
  | cons x h ih => simp only [List.foldl_cons]; exact ih _
  | swap x y l =>
    simp only [List.foldl_cons]
    rw [inf_right_comm]
  | trans h1 h2 ih1 ih2 => rw [ih1, ih2]

/-- A max-fold only depends on the folded function's values on the list. -/
theorem foldl_max_congr {α : Type} (F G : α → Score) :
    ∀ (l : List α), (∀ c ∈ l, F c = G c) → ∀ i,
      l.foldl (fun a c => max a (F c)) i = l.foldl (fun a c => max a (G c)) i := by
  intro l
  induction l with
  | nil => intro _ i; rfl
  | cons c cs ih =>
    intro h i
    simp only [List.foldl_cons]
    rw [h c (List.mem_cons_self _ _)]
    exact ih (fun x hx => h x (List.mem_cons_of_mem _ hx)) _

/-- A min-fold only depends on the folded function's values on the list. -/
theorem foldl_min_congr {α : Type} (F G : α → Score) :
    ∀ (l : List α), (∀ c ∈ l, F c = G c) → ∀ i,
      l.foldl (fun a c => min a (F c)) i = l.foldl (fun a c => min a (G c)) i := by
  intro l
  induction l with
  | nil => intro _ i; rfl
  | cons c cs ih =>
    intro h i
    simp only [List.foldl_cons]
    rw [h c (List.mem_cons_self _ _)]
    exact ih (fun x hx => h x (List.mem_cons_of_mem _ hx)) _

/-- The maximizing quiescence loop computes the `beta`-capped max of the
accumulator and the children's full-window values, when each child call
returns its value clamped into the window. -/
theorem abQLoopMax_eq {σ : Type} (rec : σ → Score → Score) (v : σ → Score) (beta : Score)
    (hrec : ∀ c a, a < beta → rec c a = max a (min beta (v c))) :
    ∀ (cs : List σ) (alpha : Score), alpha < beta →
      abQLoopMax rec beta cs alpha =
        min beta (cs.foldl (fun a c => max a (v c)) alpha) := by
  intro cs
  induction cs with
  | nil =>
    intro alpha halpha
    simp only [abQLoopMax, List.foldl_nil]
    exact (min_eq_right halpha.le).symm
  | cons c cs ih =>
    intro alpha halpha
    simp only [abQLoopMax, List.foldl_cons]
    rw [hrec c alpha halpha]
    by_cases hb : beta ≤ max alpha (min beta (v c))
    · rw [if_pos hb]
      have hbq : beta ≤ v c := by
        rcases le_max_iff.mp hb with h | h
        · exact absurd h (not_le.mpr halpha)
        · exact (le_min_iff.mp h).2
      have hfold : beta ≤ (cs.foldl (fun a c => max a (v c)) (max alpha (v c))) :=
        le_trans (le_trans hbq (le_max_right alpha (v c)))
          (foldl_max_init_le v cs (max alpha (v c)))
      exact (min_eq_left hfold).symm
    · rw [if_neg hb]
      have hq : v c < beta := by
        by_contra hq2
        push_neg at hq2
        rw [min_eq_left hq2] at hb
        exact hb (le_max_right _ _)
      rw [min_eq_right hq.le, ← max_assoc, max_self]
      exact ih (max alpha (v c)) (max_lt halpha hq)

/-- Dual of `abQLoopMax_eq` for the minimizing quiescence loop. -/
theorem abQLoopMin_eq {σ : Type} (rec : σ → Score → Score) (v : σ → Score) (alpha : Score)
    (hrec : ∀ c b, alpha < b → rec c b = min b (max alpha (v c))) :
    ∀ (cs : List σ) (beta : Score), alpha < beta →
      abQLoopMin rec alpha cs beta =
        max alpha (cs.foldl (fun a c => min a (v c)) beta) := by
  intro cs
  induction cs with
  | nil =>
    intro beta hbeta
    simp only [abQLoopMin, List.foldl_nil]
    exact (max_eq_right hbeta.le).symm
  | cons c cs ih =>
    intro beta hbeta
    simp only [abQLoopMin, List.foldl_cons]
    rw [hrec c beta hbeta]
    by_cases hb : min beta (max alpha (v c)) ≤ alpha
    · rw [if_pos hb]
      have hbq : v c ≤ alpha := by
        rcases min_le_iff.mp hb with h | h
        · exact absurd h (not_le.mpr hbeta)
        · exact (max_le_iff.mp h).2
      have hfold : (cs.foldl (fun a c => min a (v c)) (min beta (v c))) ≤ alpha :=
        le_trans (foldl_min_le_init v cs (min beta (v c)))
          (le_trans (min_le_right beta (v c)) hbq)
      exact (max_eq_left hfold).symm
    · rw [if_neg hb]
      have hq : alpha < v c := by
        by_contra hq2
        push_neg at hq2
        rw [max_eq_left hq2] at hb
        exact hb (min_le_right _ _)
      rw [max_eq_right hq.le, ← min_assoc, min_self]
      exact ih (min beta (v c)) (lt_min hbeta hq)

/-- The quiescence loops only consult the child routine on list members. -/
theorem abQLoopMax_congr {σ : Type} (rec1 rec2 : σ → Score → Score) (beta : Score) :
    ∀ (cs : List σ), (∀ c ∈ cs, ∀ a, rec1 c a = rec2 c a) →
      ∀ alpha, abQLoopMax rec1 beta cs alpha = abQLoopMax rec2 beta cs alpha := by
  intro cs
  induction cs with
  | nil => intro _ alpha; rfl
  | cons c cs ih =>
    intro h alpha
    simp only [abQLoopMax]
    rw [h c (List.mem_cons_self _ _) alpha]
    split
    · rfl
    · exact ih (fun x hx => h x (List.mem_cons_of_mem _ hx)) _

/-- Dual of `abQLoopMax_congr`. -/
theorem abQLoopMin_congr {σ : Type} (rec1 rec2 : σ → Score → Score) (alpha : Score) :
    ∀ (cs : List σ), (∀ c ∈ cs, ∀ b, rec1 c b = rec2 c b) →
      ∀ beta, abQLoopMin rec1 alpha cs beta = abQLoopMin rec2 alpha cs beta := by
  intro cs
  induction cs with
  | nil => intro _ beta; rfl
  | cons c cs ih =>
    intro h beta
    simp only [abQLoopMin]
    rw [h c (List.mem_cons_self _ _) beta]
    split
    · rfl
    · exact ih (fun x hx => h x (List.mem_cons_of_mem _ hx)) _

/-- Fail-hard quiescence returns the full-window quiescence value clamped
into the caller's window: `AlphaBetaSearch._quiescence` with window
`(alpha, beta)` equals `max alpha (min beta qVal)`. -/
theorem abQuiesce_clamp {σ μ κ : Type} (g : Game σ μ κ) (ev : σ → ℕ → ℤ)
    (ord : σ → List μ → List μ) (hord : ∀ s l, (ord s l).Perm l) :
    ∀ (fuel : ℕ) (s : σ) (alpha beta : Score) (maxi : Bool) (ply : ℕ), alpha < beta →
      abQuiesce g ev ord fuel s alpha beta maxi ply =
        max alpha (min beta (qVal g ev fuel s maxi ply)) := by
  intro fuel
  induction fuel with
  | zero =>
    intro s alpha beta maxi ply h
    cases maxi with
    | true =>
      simp only [abQuiesce, qVal, Bool.false_eq_true, if_true, if_false]
      by_cases hb : beta ≤ intScore (ev s ply)
      · rw [if_pos hb, min_eq_left hb, max_eq_right h.le]
      · rw [if_neg hb, min_eq_right (not_le.mp hb).le]
    | false =>
      simp only [abQuiesce, qVal, Bool.false_eq_true, if_true, if_false]
      by_cases hb : intScore (ev s ply) ≤ alpha
      · rw [if_pos hb, max_eq_left (le_trans (min_le_right _ _) hb)]
      · rw [if_neg hb]
        have := not_le.mp hb
        rw [max_eq_right (le_min h.le this.le)]
  | succ fuel ih =>
    intro s alpha beta maxi ply h
    have hperm : ((ord s ((g.legalMoves s).filter (fun m => g.isCapture s m))).map
        (g.push s)).Perm (((g.legalMoves s).filter (fun m => g.isCapture s m)).map
        (g.push s)) :=
      (hord s _).map (g.push s)
    cases maxi with
    | true =>
      simp only [abQuiesce, qVal, Bool.false_eq_true, if_true, if_false]
      by_cases hb : beta ≤ intScore (ev s ply)
      · rw [if_pos hb]
        have hfold : beta ≤ (((g.legalMoves s).filter (fun m => g.isCapture s m)).map
            (g.push s)).foldl (fun a c => max a (qVal g ev fuel c false (ply + 1)))
            (intScore (ev s ply)) :=
          le_trans hb (foldl_max_init_le _ _ _)
        rw [min_eq_left hfold, max_eq_right h.le]
      · rw [if_neg hb]
        have hsp : intScore (ev s ply) < beta := not_le.mp hb
        rw [abQLoopMax_eq _ (fun c => qVal g ev fuel c false (ply + 1)) beta
          (fun c a ha => ih c a beta false (ply + 1) ha) _ _ (max_lt h hsp)]
        rw [foldl_max_perm _ hperm]
        rw [foldl_max_pull, min_max_distrib_left, min_eq_right h.le]
    | false =>
      simp only [abQuiesce, qVal, Bool.false_eq_true, if_true, if_false]
      by_cases hb : intScore (ev s ply) ≤ alpha
      · rw [if_pos hb]
        have hfold : (((g.legalMoves s).filter (fun m => g.isCapture s m)).map
            (g.push s)).foldl (fun a c => min a (qVal g ev fuel c true (ply + 1)))
            (intScore (ev s ply)) ≤ alpha :=
          le_trans (foldl_min_le_init _ _ _) hb
        rw [max_eq_left (le_trans (min_le_right _ _) hfold)]
      · rw [if_neg hb]
        have hsp : alpha < intScore (ev s ply) := not_le.mp hb
        rw [abQLoopMin_eq _ (fun c => qVal g ev fuel c true (ply + 1)) alpha
          (fun c b hbb => by
            rw [ih c alpha b true (ply + 1) hbb, min_max_distrib_left,
              min_eq_right hbb.le]) _ _ (lt_min h hsp)]
        rw [foldl_min_perm _ hperm]
        rw [foldl_min_pull]

/-- A key-distinct node's own key is not on the ambient path. -/
theorem keysDistinct_not_mem {σ μ κ : Type} [DecidableEq κ] (g : Game σ μ κ)
    {n : ℕ} {s : σ} {seen : List κ} (h : keysDistinct g n s seen = true) :
    g.key s ∉ seen := by
  cases n with
  | zero =>
    simp only [keysDistinct, Bool.not_eq_true', decide_eq_false_iff_not] at h
    exact h
  | succ n =>
    simp only [keysDistinct, Bool.and_eq_true, Bool.not_eq_true',
      decide_eq_false_iff_not] at h
    exact h.1

/-- Key-distinctness passes to every legal successor, with the node's key
added to the path. -/
theorem keysDistinct_step {σ μ κ : Type} [DecidableEq κ] (g : Game σ μ κ)
    {n : ℕ} {s : σ} {seen : List κ} (h : keysDistinct g (n + 1) s seen = true) :
    ∀ m ∈ g.legalMoves s, keysDistinct g n (g.push s m) (g.key s :: seen) = true := by
  simp only [keysDistinct, Bool.and_eq_true, List.all_eq_true] at h
  exact h.2

/-- When no key on the capture tree repeats, `MiniMaxSearch._quiescence`
never triggers its repetition checks and coincides with
`AlphaBetaSearch._quiescence` on the same window and ordering. -/
theorem mmQuiesce_eq {σ μ κ : Type} [DecidableEq κ] (g : Game σ μ κ) (ev : σ → ℕ → ℤ)
    (ord : σ → List μ → List μ) (hord : ∀ s l, (ord s l).Perm l) :
    ∀ (fuel : ℕ) (s : σ) (alpha beta : Score) (maxi : Bool) (ply : ℕ) (path : List κ),
      keysDistinct g fuel s path = true →
      mmQuiesce g ev ord fuel s alpha beta maxi ply (g.key s :: path) =
        abQuiesce g ev ord fuel s alpha beta maxi ply := by
  intro fuel
  induction fuel with
  | zero => intro s alpha beta maxi ply path _; rfl
  | succ fuel ih =>
    intro s alpha beta maxi ply path h
    have hch := keysDistinct_step g h
    have hrec : ∀ c ∈ (ord s ((g.legalMoves s).filter (fun m => g.isCapture s m))).map
        (g.push s), ∀ (x : Score) (mx : Bool),
        (if g.key c ∈ g.key s :: path then intScore 0
         else mmQuiesce g ev ord fuel c
            (if mx then alpha else x) (if mx then x else beta) mx (ply + 1)
            (g.key c :: g.key s :: path)) =
          abQuiesce g ev ord fuel c
            (if mx then alpha else x) (if mx then x else beta) mx (ply + 1) := by
      intro c hc x mx
      rcases List.mem_map.mp hc with ⟨m, hm, rfl⟩
      have hmem : m ∈ g.legalMoves s :=
        (List.mem_filter.mp ((hord s _).mem_iff.mp hm)).1
      have hkd := hch m hmem
      rw [if_neg (keysDistinct_not_mem g hkd)]
      exact ih (g.push s m) _ _ mx (ply + 1) (g.key s :: path) hkd
    cases maxi with
    | true =>
      simp only [mmQuiesce, abQuiesce, if_true]
      split
      · rfl
      · exact abQLoopMax_congr _ _ _ _ (fun c hc a => by
          have := hrec c hc a false
          simpa using this) _
    | false =>
      simp only [mmQuiesce, abQuiesce, Bool.false_eq_true, if_false]
      split
      · rfl
      · exact abQLoopMin_congr _ _ _ _ (fun c hc b => by
          have := hrec c hc b true
          simpa using this) _

/-- When no key repeats within the horizon, `MiniMaxSearch._minimax`
computes the plain reference minimax value: its repetition checks never
fire, and ordering the moves does not change a max or a min. -/
theorem mmGo_eq_mVal {σ μ κ : Type} [DecidableEq κ] (g : Game σ μ κ) (ev : σ → ℕ → ℤ)
    (ord : σ → List μ → List μ) (hord : ∀ s l, (ord s l).Perm l) :
    ∀ (depth fuel : ℕ) (s : σ) (maxi : Bool) (ply : ℕ) (path : List κ),
      keysDistinct g (depth + fuel) s path = true →
      mmGo g ev ord depth fuel s maxi ply path = mVal g ev depth fuel s maxi ply := by
  intro depth
  induction depth with
  | zero =>
    intro fuel s maxi ply path h
    have h0 : keysDistinct g fuel s path = true := by rwa [Nat.zero_add] at h
    have hnm := keysDistinct_not_mem g h0
    simp only [mmGo, mVal]
    rw [if_neg hnm]
    by_cases hgo : g.isGameOver s = true
    · rw [if_pos hgo, if_pos hgo]
    · rw [if_neg hgo, if_neg hgo,
        mmQuiesce_eq g ev ord hord fuel s ⊥ ⊤ maxi ply path h0,
        abQuiesce_clamp g ev ord hord fuel s ⊥ ⊤ maxi ply bot_lt_top,
        min_eq_right le_top, max_eq_right bot_le]
  | succ d ih =>
    intro fuel s maxi ply path h
    have hrw : keysDistinct g ((d + fuel) + 1) s path = true := by
      rwa [Nat.succ_add] at h
    have hnm := keysDistinct_not_mem g hrw
    have hch := keysDistinct_step g hrw
    simp only [mmGo, mVal]
    rw [if_neg hnm]
    by_cases hgo : g.isGameOver s = true
    · rw [if_pos hgo, if_pos hgo]
    · rw [if_neg hgo, if_neg hgo]
      cases maxi with
      | true =>
        simp only [if_true]
        have hcong : ∀ c ∈ (ord s (g.legalMoves s)).map (g.push s),
            mmGo g ev ord d fuel c false (ply + 1) (g.key s :: path) =
              mVal g ev d fuel c false (ply + 1) := by
          intro c hc
          rcases List.mem_map.mp hc with ⟨m, hm, rfl⟩
          exact ih fuel _ false (ply + 1) _ (hch m ((hord s _).mem_iff.mp hm))
        rw [foldl_max_congr _ _ _ hcong]
        exact foldl_max_perm _ ((hord s _).map (g.push s)) ⊥
      | false =>
        simp only [Bool.false_eq_true, if_false]
        have hcong : ∀ c ∈ (ord s (g.legalMoves s)).map (g.push s),
            mmGo g ev ord d fuel c true (ply + 1) (g.key s :: path) =
              mVal g ev d fuel c true (ply + 1) := by
          intro c hc
          rcases List.mem_map.mp hc with ⟨m, hm, rfl⟩
          exact ih fuel _ true (ply + 1) _ (hch m ((hord s _).mem_iff.mp hm))
        rw [foldl_min_congr _ _ _ hcong]
        exact foldl_min_perm _ ((hord s _).map (g.push s)) ⊤

/-- `min beta` of a max-fold is bounded by the same fold from any
accumulator dominating `min beta` of the original one. -/
theorem foldl_max_min_le {α : Type} (v : α → Score) (beta : Score) :
    ∀ (l : List α) {i j : Score}, min beta i ≤ j →
      min beta (l.foldl (fun a c => max a (v c)) i) ≤
        l.foldl (fun a c => max a (v c)) j := by
  intro l
  induction l with
  | nil => intro i j h; exact h
  | cons c cs ih =>
    intro i j h
    simp only [List.foldl_cons]
    refine ih ?_
    rw [min_max_distrib_left]
    exact max_le_max h (min_le_right _ _)

/-- A max-fold started below `max alpha` of another accumulator stays
below `max alpha` of the other fold. -/
theorem foldl_max_le_max {α : Type} (v : α → Score) (alpha : Score) :
    ∀ (l : List α) {i j : Score}, i ≤ max alpha j →
      l.foldl (fun a c => max a (v c)) i ≤
        max alpha (l.foldl (fun a c => max a (v c)) j) := by
  intro l
  induction l with
  | nil => intro i j h; exact h
  | cons c cs ih =>
    intro i j h
    simp only [List.foldl_cons]
    refine ih ?_
    refine max_le (le_trans h (max_le_max le_rfl (le_max_left _ _))) ?_
    exact le_trans (le_max_right j (v c)) (le_max_right _ _)

/-- Dual of `foldl_max_le_max` for min-folds. -/
theorem foldl_min_max_ge {α : Type} (v : α → Score) (alpha : Score) :
    ∀ (l : List α) {i j : Score}, j ≤ max alpha i →
      l.foldl (fun a c => min a (v c)) j ≤
        max alpha (l.foldl (fun a c => min a (v c)) i) := by
  intro l
  induction l with
  | nil => intro i j h; exact h
  | cons c cs ih =>
    intro i j h
    simp only [List.foldl_cons]
    refine ih ?_
    rw [max_min_distrib_left]
    exact min_le_min h (le_max_right _ _)

/-- Dual of `foldl_max_min_le` for min-folds. -/
theorem foldl_min_ge_min {α : Type} (v : α → Score) (beta : Score) :
    ∀ (l : List α) {i j : Score}, min beta i ≤ j →
      min beta (l.foldl (fun a c => min a (v c)) i) ≤
        l.foldl (fun a c => min a (v c)) j := by
  intro l
  induction l with
  | nil => intro i j h; exact h
  | cons c cs ih =>
    intro i j h
    simp only [List.foldl_cons]
    refine ih ?_
    refine le_min (le_trans ?_ h) ?_
    · exact min_le_min le_rfl (min_le_left _ _)
    · exact le_trans (min_le_right _ _) (min_le_right _ _)

/-- Fail-soft bound for the maximizing alpha-beta loop: whatever cutoffs
occur, the returned `max_eval` lies between `min beta` and `max alpha` of
the true maximum, provided every child call respects the same bounds
against its window. -/
theorem abLoopMax_bounds {σ : Type} (rec : σ → Score → Score) (v : σ → Score) (beta : Score)
    (hrec : ∀ c a, a < beta → min beta (v c) ≤ rec c a ∧ rec c a ≤ max a (v c)) :
    ∀ (cs : List σ) (m alpha : Score), alpha < beta → m ≤ alpha →
      min beta (cs.foldl (fun a c => max a (v c)) m) ≤ abLoopMax rec beta cs m alpha ∧
      abLoopMax rec beta cs m alpha ≤ max alpha (cs.foldl (fun a c => max a (v c)) m) := by
  intro cs
  induction cs with
  | nil =>
    intro m alpha h1 h2
    simp only [abLoopMax, List.foldl_nil]
    exact ⟨min_le_right _ _, le_max_right _ _⟩
  | cons c cs ih =>
    intro m alpha h1 h2
    simp only [abLoopMax, List.foldl_cons]
    obtain ⟨hlo, hhi⟩ := hrec c alpha h1
    by_cases hcut : beta ≤ max alpha (rec c alpha)
    · rw [if_pos hcut]
      have hbs : beta ≤ rec c alpha := by
        rcases le_max_iff.mp hcut with hx | hx
        · exact absurd hx (not_le.mpr h1)
        · exact hx
      have hbv : beta ≤ v c := by
        rcases le_max_iff.mp (le_trans hbs hhi) with hx | hx
        · exact absurd hx (not_le.mpr h1)
        · exact hx
      have hsv : rec c alpha ≤ v c :=
        le_trans hhi (max_le (le_trans h1.le hbv) le_rfl)
      constructor
      · exact le_trans (min_le_left _ _) (le_trans hbs (le_max_right _ _))
      · have hW : v c ≤ cs.foldl (fun a x => max a (v x)) (max m (v c)) :=
          le_trans (le_max_right m (v c)) (foldl_max_init_le _ _ _)
        exact max_le (le_trans h2 (le_max_left _ _))
          (le_trans hsv (le_trans hW (le_max_right _ _)))
    · rw [if_neg hcut]
      have ha2 : max alpha (rec c alpha) < beta := not_le.mp hcut
      have hm2 : max m (rec c alpha) ≤ max alpha (rec c alpha) := max_le_max h2 le_rfl
      obtain ⟨ihlo, ihhi⟩ := ih (max m (rec c alpha)) (max alpha (rec c alpha)) ha2 hm2
      constructor
      · refine le_trans ?_ ihlo
        refine le_min (min_le_left _ _) ?_
        refine foldl_max_min_le v beta cs ?_
        rw [min_max_distrib_left]
        exact max_le_max (min_le_right _ _) hlo
      · refine le_trans ihhi ?_
        refine max_le ?_ ?_
        · refine max_le (le_max_left _ _) ?_
          have hvW : v c ≤ cs.foldl (fun a x => max a (v x)) (max m (v c)) :=
            le_trans (le_max_right m (v c)) (foldl_max_init_le _ _ _)
          exact le_trans hhi (max_le (le_max_left _ _)
            (le_trans hvW (le_max_right _ _)))
        · refine foldl_max_le_max v alpha cs ?_
          refine max_le ?_ ?_
          · exact le_trans (le_max_left m (v c)) (le_max_right _ _)
          · refine le_trans hhi ?_
            exact max_le (le_max_left _ _)
              (le_trans (le_max_right m (v c)) (le_max_right _ _))
      -- in the cut-free step the accumulators are `max m s` and `max alpha s`
      -- with `s = rec c alpha` squeezed between `min beta (v c)` and
      -- `max alpha (v c)`

/-- Dual of `abLoopMax_bounds` for the minimizing alpha-beta loop. -/
theorem abLoopMin_bounds {σ : Type} (rec : σ → Score → Score) (v : σ → Score) (alpha : Score)
    (hrec : ∀ c b, alpha < b → min b (v c) ≤ rec c b ∧ rec c b ≤ max alpha (v c)) :
    ∀ (cs : List σ) (m beta : Score), alpha < beta → beta ≤ m →
      min beta (cs.foldl (fun a c => min a (v c)) m) ≤ abLoopMin rec alpha cs m beta ∧
      abLoopMin rec alpha cs m beta ≤ max alpha (cs.foldl (fun a c => min a (v c)) m) := by
  intro cs
  induction cs with
  | nil =>
    intro m beta h1 h2
    simp only [abLoopMin, List.foldl_nil]
    exact ⟨min_le_right _ _, le_max_right _ _⟩
  | cons c cs ih =>
    intro m beta h1 h2
    simp only [abLoopMin, List.foldl_cons]
    obtain ⟨hlo, hhi⟩ := hrec c beta h1
    by_cases hcut : min beta (rec c beta) ≤ alpha
    · rw [if_pos hcut]
      have hbs : rec c beta ≤ alpha := by
        rcases min_le_iff.mp hcut with hx | hx
        · exact absurd hx (not_le.mpr h1)
        · exact hx
      have hbv : v c ≤ alpha := by
        rcases min_le_iff.mp (le_trans hlo hbs) with hx | hx
        · exact absurd hx (not_le.mpr h1)
        · exact hx
      have hsv : v c ≤ rec c beta := by
        have h3 := hlo
        rwa [min_eq_right (le_trans hbv h1.le)] at h3
      constructor
      · refine le_min (le_trans (min_le_left _ _) h2) ?_
        have hW : cs.foldl (fun a x => min a (v x)) (min m (v c)) ≤ v c :=
          le_trans (foldl_min_le_init _ _ _) (min_le_right m (v c))
        exact le_trans (min_le_right _ _) (le_trans hW hsv)
      · exact le_trans (min_le_right m _) (le_trans hbs (le_max_left _ _))
    · rw [if_neg hcut]
      have hb2 : alpha < min beta (rec c beta) := not_le.mp hcut
      have hm2 : min beta (rec c beta) ≤ min m (rec c beta) := min_le_min h2 le_rfl
      obtain ⟨ihlo, ihhi⟩ := ih (min m (rec c beta)) (min beta (rec c beta)) hb2 hm2
      constructor
      · refine le_trans ?_ ihlo
        refine le_min ?_ ?_
        · refine le_min (min_le_left _ _) ?_
          refine le_trans (min_le_min le_rfl ?_) hlo
          exact le_trans (foldl_min_le_init _ _ _) (min_le_right _ _)
        · refine foldl_min_ge_min v beta cs ?_
          refine le_min ?_ ?_
          · exact le_trans (min_le_right _ _) (min_le_left _ _)
          · exact le_trans (min_le_min le_rfl (min_le_right _ _)) hlo
      · refine le_trans ihhi ?_
        refine max_le (le_max_left _ _) ?_
        refine foldl_min_max_ge v alpha cs ?_
        refine le_trans (min_le_min le_rfl hhi) ?_
        rw [min_max_distrib_left]
        exact max_le_max (min_le_right _ _) le_rfl

/-- Quiescence values are always finite: they are max/min-folds seeded with
a stand-pat evaluation. -/
theorem qVal_finite {σ μ κ : Type} (g : Game σ μ κ) (ev : σ → ℕ → ℤ) :
    ∀ (fuel : ℕ) (s : σ) (maxi : Bool) (ply : ℕ),
      qVal g ev fuel s maxi ply ≠ ⊤ ∧ qVal g ev fuel s maxi ply ≠ ⊥ := by
  intro fuel
  induction fuel with
  | zero => intro s maxi ply; exact ⟨intScore_ne_top _, intScore_ne_bot _⟩
  | succ fuel ih =>
    intro s maxi ply
    cases maxi with
    | true =>
      simp only [qVal, if_true]
      constructor
      · exact foldl_max_ne_top _ _ _ (intScore_ne_top _) (fun c _ => (ih c false (ply + 1)).1)
      · intro hbot
        have h1 := foldl_max_init_le
          (fun c => qVal g ev fuel c false (ply + 1))
          (((g.legalMoves s).filter (fun m => g.isCapture s m)).map (g.push s))
          (intScore (ev s ply))
        rw [hbot] at h1
        exact intScore_ne_bot (ev s ply) (le_bot_iff.mp h1)
    | false =>
      simp only [qVal, Bool.false_eq_true, if_false]
      constructor
      · intro htop
        have h1 := foldl_min_le_init
          (fun c => qVal g ev fuel c true (ply + 1))
          (((g.legalMoves s).filter (fun m => g.isCapture s m)).map (g.push s))
          (intScore (ev s ply))
        rw [htop] at h1
        exact intScore_ne_top (ev s ply) (top_le_iff.mp h1)
      · exact foldl_min_ne_bot _ _ _ (intScore_ne_bot _) (fun c _ => (ih c true (ply + 1)).2)

/-- Search values are finite whenever every non-terminal position within
the horizon has a legal move (as in chess). -/
theorem mVal_finite {σ μ κ : Type} (g : Game σ μ κ) (ev : σ → ℕ → ℤ) :
    ∀ (depth fuel : ℕ) (s : σ) (maxi : Bool) (ply : ℕ),
      movesAvailable g depth s = true →
      mVal g ev depth fuel s maxi ply ≠ ⊤ ∧ mVal g ev depth fuel s maxi ply ≠ ⊥ := by
  intro depth
  induction depth with
  | zero =>
    intro fuel s maxi ply _
    simp only [mVal]
    split
    · exact ⟨intScore_ne_top _, intScore_ne_bot _⟩
    · exact qVal_finite g ev fuel s maxi ply
  | succ d ih =>
    intro fuel s maxi ply h
    simp only [mVal]
    by_cases hgo : g.isGameOver s = true
    · rw [if_pos hgo]
      exact ⟨intScore_ne_top _, intScore_ne_bot _⟩
    · rw [if_neg hgo]
      rw [Bool.not_eq_true] at hgo
      simp only [movesAvailable, hgo, Bool.false_or, Bool.and_eq_true,
        Bool.not_eq_true', List.all_eq_true] at h
      obtain ⟨hne, hall⟩ := h
      cases hleg : g.legalMoves s with
      | nil => rw [hleg] at hne; simp at hne
      | cons m ms =>
        rw [hleg] at hall
        cases maxi with
        | true =>
          simp only [if_true, hleg, List.map_cons, List.foldl_cons]
          have hhd := ih fuel (g.push s m) false (ply + 1)
            (hall m (List.mem_cons_self _ _))
          constructor
          · refine foldl_max_ne_top _ _ _ ?_ ?_
            · rcases max_choice (⊥ : Score)
                (mVal g ev d fuel (g.push s m) false (ply + 1)) with hx | hx <;> rw [hx]
              · exact bot_ne_top
              · exact hhd.1
            · intro c hc
              rcases List.mem_map.mp hc with ⟨m2, hm2, rfl⟩
              exact (ih fuel _ false (ply + 1)
                (hall m2 (List.mem_cons_of_mem _ hm2))).1
          · intro hbot
            have h1 := foldl_max_init_le
              (fun c => mVal g ev d fuel c false (ply + 1)) (ms.map (g.push s))
              (max ⊥ (mVal g ev d fuel (g.push s m) false (ply + 1)))
            rw [hbot, max_eq_right bot_le] at h1
            exact hhd.2 (le_bot_iff.mp h1)
        | false =>
          simp only [Bool.false_eq_true, if_false, hleg, List.map_cons, List.foldl_cons]
          have hhd := ih fuel (g.push s m) true (ply + 1)
            (hall m (List.mem_cons_self _ _))
          constructor
          · intro htop
            have h1 := foldl_min_le_init
              (fun c => mVal g ev d fuel c true (ply + 1)) (ms.map (g.push s))
              (min ⊤ (mVal g ev d fuel (g.push s m) true (ply + 1)))
            rw [htop, min_eq_right le_top] at h1
            exact hhd.1 (top_le_iff.mp h1)
          · refine foldl_min_ne_bot _ _ _ ?_ ?_
            · rcases min_choice (⊤ : Score)
                (mVal g ev d fuel (g.push s m) true (ply + 1)) with hx | hx <;> rw [hx]
              · exact top_ne_bot
              · exact hhd.2
            · intro c hc
              rcases List.mem_map.mp hc with ⟨m2, hm2, rfl⟩
              exact (ih fuel _ true (ply + 1)
                (hall m2 (List.mem_cons_of_mem _ hm2))).2

/-- Fail-soft alpha-beta: `_alpha_beta` with window `(alpha, beta)` lies
between `min beta` and `max alpha` of the reference minimax value. -/
theorem abGo_bounds {σ μ κ : Type} (g : Game σ μ κ) (ev : σ → ℕ → ℤ)
    (ord : σ → List μ → List μ) (hord : ∀ s l, (ord s l).Perm l) :
    ∀ (depth fuel : ℕ) (s : σ) (alpha beta : Score) (maxi : Bool) (ply : ℕ),
      alpha < beta →
      min beta (mVal g ev depth fuel s maxi ply) ≤
          abGo g ev ord depth fuel s alpha beta maxi ply ∧
        abGo g ev ord depth fuel s alpha beta maxi ply ≤
          max alpha (mVal g ev depth fuel s maxi ply) := by
  intro depth
  induction depth with
  | zero =>
    intro fuel s alpha beta maxi ply h
    simp only [abGo, mVal]
    by_cases hgo : g.isGameOver s = true
    · rw [if_pos hgo, if_pos hgo]
      exact ⟨min_le_right _ _, le_max_right _ _⟩
    · rw [if_neg hgo, if_neg hgo,
        abQuiesce_clamp g ev ord hord fuel s alpha beta maxi ply h]
      exact ⟨le_max_right _ _, max_le_max le_rfl (min_le_right _ _)⟩
  | succ d ih =>
    intro fuel s alpha beta maxi ply h
    simp only [abGo, mVal]
    by_cases hgo : g.isGameOver s = true
    · rw [if_pos hgo, if_pos hgo]
      exact ⟨min_le_right _ _, le_max_right _ _⟩
    · rw [if_neg hgo, if_neg hgo]
      by_cases hmx : maxi = true
      · rw [if_pos hmx, if_pos hmx]
        have hloop := abLoopMax_bounds
          (fun c a => abGo g ev ord d fuel c a beta false (ply + 1))
          (fun c => mVal g ev d fuel c false (ply + 1)) beta
          (fun c a ha => ih fuel c a beta false (ply + 1) ha)
          ((ord s (g.legalMoves s)).map (g.push s)) ⊥ alpha h bot_le
        rwa [foldl_max_perm (fun c => mVal g ev d fuel c false (ply + 1))
          ((hord s (g.legalMoves s)).map (g.push s)) ⊥] at hloop
      · rw [if_neg hmx, if_neg hmx]
        have hloop := abLoopMin_bounds
          (fun c b => abGo g ev ord d fuel c alpha b true (ply + 1))
          (fun c => mVal g ev d fuel c true (ply + 1)) alpha
          (fun c b hb => ih fuel c alpha b true (ply + 1) hb)
          ((ord s (g.legalMoves s)).map (g.push s)) ⊤ beta h le_top
        rwa [foldl_min_perm (fun c => mVal g ev d fuel c true (ply + 1))
          ((hord s (g.legalMoves s)).map (g.push s)) ⊤] at hloop

/-- The strict-improvement update of the root loops is a max. -/
theorem ite_lt_eq_max (a b : Score) : (if a < b then b else a) = max a b := by
  by_cases h : a < b
  · rw [if_pos h, max_eq_right h.le]
  · rw [if_neg h, max_eq_left (not_lt.mp h)]

/-- The strict-improvement update of the root loops is a min. -/
theorem ite_lt_eq_min (a b : Score) : (if b < a then b else a) = min a b := by
  by_cases h : b < a
  · rw [if_pos h, min_eq_right h.le]
  · rw [if_neg h, min_eq_left (not_lt.mp h)]

/-- The minimax root loop (White) returns the max of the initial best
value and the children's `_minimax` values. -/
theorem mmRootLoop_snd_white {σ μ κ : Type} [DecidableEq κ] (g : Game σ μ κ)
    (ev : σ → ℕ → ℤ) (ord : σ → List μ → List μ) (depth fuel : ℕ) (s : σ)
    (rootPath : List κ) (ht : g.turnWhite s = true) :
    ∀ (ms : List μ) (best : Option μ × Score),
      (mmRootLoop g ev ord depth fuel s rootPath ms best).2 =
        ms.foldl (fun acc m => max acc (mmGo g ev ord depth fuel (g.push s m)
          (g.turnWhite (g.push s m)) 1 rootPath)) best.2 := by
  intro ms
  induction ms with
  | nil => intro best; rfl
  | cons m ms ih =>
    intro best
    simp only [mmRootLoop, ht, if_true, List.foldl_cons]
    rw [ih, apply_ite Prod.snd, ite_lt_eq_max]

/-- The minimax root loop (Black) returns the min of the initial best
value and the children's `_minimax` values. -/
theorem mmRootLoop_snd_black {σ μ κ : Type} [DecidableEq κ] (g : Game σ μ κ)
    (ev : σ → ℕ → ℤ) (ord : σ → List μ → List μ) (depth fuel : ℕ) (s : σ)
    (rootPath : List κ) (ht : g.turnWhite s = false) :
    ∀ (ms : List μ) (best : Option μ × Score),
      (mmRootLoop g ev ord depth fuel s rootPath ms best).2 =
        ms.foldl (fun acc m => min acc (mmGo g ev ord depth fuel (g.push s m)
          (g.turnWhite (g.push s m)) 1 rootPath)) best.2 := by
  intro ms
  induction ms with
  | nil => intro best; rfl
  | cons m ms ih =>
    intro best
    simp only [mmRootLoop, ht, Bool.false_eq_true, if_false, List.foldl_cons]
    rw [ih, apply_ite Prod.snd, ite_lt_eq_min]

/-- The alpha-beta root loop (White) returns the max of the initial best
value and the children's reference values, provided the running `alpha`
stays equal to the best value (as it does from the start) and every child
value is finite. -/
theorem abRootLoop_snd_white {σ μ κ : Type} (g : Game σ μ κ) (ev : σ → ℕ → ℤ)
    (ord : σ → List μ → List μ) (hord : ∀ s l, (ord s l).Perm l)
    (depth fuel : ℕ) (s : σ) (ht : g.turnWhite s = true) :
    ∀ (ms : List μ) (best : Option μ × Score) (alpha : Score),
      best.2 = alpha → alpha ≠ ⊤ →
      (∀ m ∈ ms,
        mVal g ev depth fuel (g.push s m) (g.turnWhite (g.push s m)) 1 ≠ ⊤) →
      (abRootLoop g ev ord depth fuel s ms best alpha ⊤).2 =
        ms.foldl (fun acc m => max acc (mVal g ev depth fuel (g.push s m)
          (g.turnWhite (g.push s m)) 1)) best.2 := by
  intro ms
  induction ms with
  | nil => intro best alpha _ _ _; rfl
  | cons m ms ih =>
    intro best alpha hba halpha hfin
    simp only [abRootLoop, ht, if_true, List.foldl_cons]
    have hbounds := abGo_bounds g ev ord hord depth fuel (g.push s m) alpha ⊤
      (g.turnWhite (g.push s m)) 1 (lt_top_iff_ne_top.mpr halpha)
    rw [min_eq_right le_top] at hbounds
    have hVfin := hfin m (List.mem_cons_self _ _)
    have hmaxeq : max alpha (abGo g ev ord depth fuel (g.push s m) alpha ⊤
        (g.turnWhite (g.push s m)) 1) =
        max alpha (mVal g ev depth fuel (g.push s m) (g.turnWhite (g.push s m)) 1) := by
      refine le_antisymm ?_ ?_
      · exact max_le (le_max_left _ _) hbounds.2
      · exact max_le_max le_rfl hbounds.1
    have hb2 : (if best.2 < abGo g ev ord depth fuel (g.push s m) alpha ⊤
        (g.turnWhite (g.push s m)) 1 then
          (some m, abGo g ev ord depth fuel (g.push s m) alpha ⊤
            (g.turnWhite (g.push s m)) 1)
        else best).2 =
        max alpha (mVal g ev depth fuel (g.push s m) (g.turnWhite (g.push s m)) 1) := by
      rw [apply_ite Prod.snd, ite_lt_eq_max, hba, hmaxeq]
    rw [ih _ (max alpha (abGo g ev ord depth fuel (g.push s m) alpha ⊤
        (g.turnWhite (g.push s m)) 1))
      (by rw [hb2, hmaxeq])
      (by
        rw [hmaxeq]
        rcases max_choice alpha (mVal g ev depth fuel (g.push s m)
          (g.turnWhite (g.push s m)) 1) with hx | hx <;> rw [hx]
        · exact halpha
        · exact hVfin)
      (fun m2 hm2 => hfin m2 (List.mem_cons_of_mem _ hm2))]
    rw [hb2, hba]

/-- Dual of `abRootLoop_snd_white` for a Black root. -/
theorem abRootLoop_snd_black {σ μ κ : Type} (g : Game σ μ κ) (ev : σ → ℕ → ℤ)
    (ord : σ → List μ → List μ) (hord : ∀ s l, (ord s l).Perm l)
    (depth fuel : ℕ) (s : σ) (ht : g.turnWhite s = false) :
    ∀ (ms : List μ) (best : Option μ × Score) (beta : Score),
      best.2 = beta → beta ≠ ⊥ →
      (∀ m ∈ ms,
        mVal g ev depth fuel (g.push s m) (g.turnWhite (g.push s m)) 1 ≠ ⊥) →
      (abRootLoop g ev ord depth fuel s ms best ⊥ beta).2 =
        ms.foldl (fun acc m => min acc (mVal g ev depth fuel (g.push s m)
          (g.turnWhite (g.push s m)) 1)) best.2 := by
  intro ms
  induction ms with
  | nil => intro best beta _ _ _; rfl
  | cons m ms ih =>
    intro best beta hbb hbeta hfin
    simp only [abRootLoop, ht, Bool.false_eq_true, if_false, List.foldl_cons]
    have hbounds := abGo_bounds g ev ord hord depth fuel (g.push s m) ⊥ beta
      (g.turnWhite (g.push s m)) 1 (bot_lt_iff_ne_bot.mpr hbeta)
    rw [max_eq_right bot_le] at hbounds
    have hVfin := hfin m (List.mem_cons_self _ _)
    have hmineq : min beta (abGo g ev ord depth fuel (g.push s m) ⊥ beta
        (g.turnWhite (g.push s m)) 1) =
        min beta (mVal g ev depth fuel (g.push s m) (g.turnWhite (g.push s m)) 1) := by
      refine le_antisymm ?_ ?_
      · exact min_le_min le_rfl hbounds.2
      · exact le_min (min_le_left _ _) hbounds.1
    have hb2 : (if abGo g ev ord depth fuel (g.push s m) ⊥ beta
        (g.turnWhite (g.push s m)) 1 < best.2 then
          (some m, abGo g ev ord depth fuel (g.push s m) ⊥ beta
            (g.turnWhite (g.push s m)) 1)
        else best).2 =
        min beta (mVal g ev depth fuel (g.push s m) (g.turnWhite (g.push s m)) 1) := by
      rw [apply_ite Prod.snd, ite_lt_eq_min, hbb, hmineq]
    rw [ih _ (min beta (abGo g ev ord depth fuel (g.push s m) ⊥ beta
        (g.turnWhite (g.push s m)) 1))
      (by rw [hb2, hmineq])
      (by
        rw [hmineq]
        rcases min_choice beta (mVal g ev depth fuel (g.push s m)
          (g.turnWhite (g.push s m)) 1) with hx | hx <;> rw [hx]
        · exact hbeta
        · exact hVfin)
      (fun m2 hm2 => hfin m2 (List.mem_cons_of_mem _ hm2))]
    rw [hb2, hbb]

/-- C1 amended: alpha-beta pruning itself never changes the score — for
every game, evaluator, depth ≥ 1 and quiescence fuel, and any two
orderings that permute the move list, `AlphaBetaSearch.search` and
`MiniMaxSearch.search` return equal scores PROVIDED no transposition key
repeats along any legal path within the search horizon (so that minimax's
path-based repetition detection, which alpha-beta lacks, never fires) and
every non-terminal position within the horizon has a legal move (as in
chess).  Without the no-repetition proviso the scores differ. -/
theorem alphabeta_minimax_score_eq {σ μ κ : Type} [DecidableEq κ] (g : Game σ μ κ)
    (ev : σ → ℕ → ℤ) (ordM ordA : σ → List μ → List μ)
    (hordM : ∀ s l, (ordM s l).Perm l) (hordA : ∀ s l, (ordA s l).Perm l)
    (d fuel : ℕ) (s : σ)
    (hkeys : keysDistinct g (d + 1 + fuel) s [] = true)
    (hmoves : ∀ m ∈ g.legalMoves s, movesAvailable g d (g.push s m) = true) :
    (alphaBetaSearch g ev ordA s (d + 1) fuel).2 =
      (minimaxSearch g ev ordM s (d + 1) fuel).2 := by
  have hkd : ∀ m ∈ g.legalMoves s,
      keysDistinct g (d + fuel) (g.push s m) [g.key s] = true := by
    have h2 : keysDistinct g ((d + fuel) + 1) s [] = true := by
      rwa [Nat.succ_add] at hkeys
    exact keysDistinct_step g h2
  have hmm : ∀ m ∈ ordM s (g.legalMoves s),
      mmGo g ev ordM d fuel (g.push s m) (g.turnWhite (g.push s m)) 1 [g.key s] =
        mVal g ev d fuel (g.push s m) (g.turnWhite (g.push s m)) 1 := by
    intro m hm
    exact mmGo_eq_mVal g ev ordM hordM d fuel _ _ 1 _
      (hkd m ((hordM s _).mem_iff.mp hm))
  have hfin : ∀ m ∈ g.legalMoves s,
      mVal g ev d fuel (g.push s m) (g.turnWhite (g.push s m)) 1 ≠ ⊤ ∧
      mVal g ev d fuel (g.push s m) (g.turnWhite (g.push s m)) 1 ≠ ⊥ :=
    fun m hm => mVal_finite g ev d fuel _ _ 1 (hmoves m hm)
  unfold alphaBetaSearch minimaxSearch
  simp only [Nat.add_sub_cancel]
  by_cases ht : g.turnWhite s = true
  · simp only [ht, if_true]
    rw [abRootLoop_snd_white g ev ordA hordA d fuel s ht (ordA s (g.legalMoves s))
        (none, ⊥) ⊥ rfl bot_ne_top
        (fun m hm => (hfin m ((hordA s _).mem_iff.mp hm)).1),
      mmRootLoop_snd_white g ev ordM d fuel s [g.key s] ht (ordM s (g.legalMoves s))
        (none, ⊥),
      foldl_max_congr _ _ _ hmm]
    exact (foldl_max_perm _ (hordA s (g.legalMoves s)) _).trans
      (foldl_max_perm _ (hordM s (g.legalMoves s)) _).symm
  · rw [Bool.not_eq_true] at ht
    simp only [ht, Bool.false_eq_true, if_false]
    rw [abRootLoop_snd_black g ev ordA hordA d fuel s ht (ordA s (g.legalMoves s))
        (none, ⊤) ⊤ rfl top_ne_bot
        (fun m hm => (hfin m ((hordA s _).mem_iff.mp hm)).2),
      mmRootLoop_snd_black g ev ordM d fuel s [g.key s] ht (ordM s (g.legalMoves s))
        (none, ⊤),
      foldl_min_congr _ _ _ hmm]
    exact (foldl_min_perm _ (hordA s (g.legalMoves s)) _).trans
      (foldl_min_perm _ (hordM s (g.legalMoves s)) _).symm

/-- C1 witness: the amended statement at a concrete one-move game with
distinct keys (depth 1, fuel 0): both searches return 7. -/
theorem alphabeta_minimax_score_eq_witness :
    (alphaBetaSearch witGame witEv idOrd WitSt.ws0 (0 + 1) 0).2 =
      (minimaxSearch witGame witEv idOrd WitSt.ws0 (0 + 1) 0).2 :=
  alphabeta_minimax_score_eq witGame witEv idOrd idOrd
    (fun _ l => List.Perm.refl l) (fun _ l => List.Perm.refl l) 0 0 WitSt.ws0
    (by decide) (by decide)

/-- C1 counterexample: on the 4-ply shuffle-cycle game (realizable in
chess as both sides moving a knight out and back) with the evaluator
`cexEv`, at depth 4, `AlphaBetaSearch.search` scores the root 3 while
`MiniMaxSearch.search` scores it 2: minimax's path-repetition check
returns 0 for the line that returns to the root position, alpha-beta has
no such check, and the two root scores differ.  (All ordering scores are
0 here — no captures or promotions — so Python's stable sort is the
identity ordering on both sides.) -/
theorem alphabeta_minimax_scores_differ :
    (alphaBetaSearch cexGame cexEv idOrd CexSt.root 4 0).2 = intScore 3 ∧
    (minimaxSearch cexGame cexEv idOrd CexSt.root 4 0).2 = intScore 2 ∧
    (alphaBetaSearch cexGame cexEv idOrd CexSt.root 4 0).2 ≠
      (minimaxSearch cexGame cexEv idOrd CexSt.root 4 0).2 := by
  exact ⟨by decide, by decide, by decide⟩
